import Mathlib

/-!
Verification development for the `pmp-gateway-api` request-orchestration
engine: a shallow embedding in Lean 4 of the interpolation engine
(`src/interpolation.rs`), condition evaluator (`src/conditions.rs`),
response shaper (`src/transform.rs`), route handler and dependency-wave
scheduler (`src/routes/handler.rs`, `src/routes/mod.rs`) and the HTTP
client's retry / circuit-breaker loop (`src/clients/http.rs`), together
with theorems settling the specification's claims about them.

Modelling conventions:
* `serde_json::Value` is embedded as `Json` below; numbers are modelled as
  integers (no claim exercises floating point).  `serde_json`'s default map
  is a `BTreeMap`, so wherever the source builds a literal object with
  `json!` we list the fields in sorted key order, mirroring its iteration
  order.
* Rust `HashMap`s that the code only ever reads through `get` are embedded
  as association lists; `insert` prepends, so `List.lookup` sees the most
  recent binding exactly as `HashMap::insert` overwrites.
* `axum::http::HeaderMap` lookups are case-insensitive on names; we model a
  header map as an association list queried modulo ASCII case.
* `regex::Regex` matching inside `Condition::FieldMatches` is third-party
  code; it is abstracted as a boolean-valued parameter `rmatch pattern value`
  that already folds in "a pattern that fails to compile never matches".
  Likewise `serde_json::from_str` in the response shaper's template step is
  abstracted as a `parseJson : String → Option Json` parameter.
* Asynchronous execution is embedded as explicit state passing; the
  orchestrator additionally returns the list of dispatch/skip events so that
  theorems can speak about what was dispatched under which context snapshot.
-/

/-- Shallow embedding of `serde_json::Value` (numbers restricted to
integers; no claim exercises floats). -/
inductive Json where
  | null
  | bool (b : Bool)
  | num (n : Int)
  | str (s : String)
  | arr (elems : List Json)
  | obj (fields : List (String × Json))

/-- Lower-case hexadecimal digit. -/
def hexDigit (n : Nat) : Char :=
  if n < 10 then Char.ofNat ('0'.toNat + n) else Char.ofNat ('a'.toNat + (n - 10))

/-- Four-digit hexadecimal rendering used by `serde_json` for control
characters (`\u00XX`). -/
def hex4 (n : Nat) : String :=
  String.mk [hexDigit (n / 4096 % 16), hexDigit (n / 256 % 16),
             hexDigit (n / 16 % 16), hexDigit (n % 16)]

/-- `serde_json`'s escaping of a single character inside a JSON string. -/
def escapeJsonChar (c : Char) : String :=
  if c = '"' then "\\\""
  else if c = '\\' then "\\\\"
  else if c = '\n' then "\\n"
  else if c = '\r' then "\\r"
  else if c = '\t' then "\\t"
  else if c.toNat = 8 then "\\b"
  else if c.toNat = 12 then "\\f"
  else if c.toNat < 32 then "\\u" ++ hex4 c.toNat
  else String.singleton c

/-- A JSON string literal with quotes, as `serde_json` prints it. -/
def escapeJsonString (s : String) : String :=
  "\"" ++ String.join (s.data.map escapeJsonChar) ++ "\""

mutual
/-- Compact serialization, mirroring `serde_json::to_string`. -/
def compactSerialize : Json → String
  | .null => "null"
  | .bool b => if b then "true" else "false"
  | .num n => toString n
  | .str s => escapeJsonString s
  | .arr elems => "[" ++ serializeElems elems ++ "]"
  | .obj fields => "\x7b" ++ serializeFields fields ++ "\x7d"

/-- Comma-separated serialization of array elements. -/
def serializeElems : List Json → String
  | [] => ""
  | [x] => compactSerialize x
  | x :: y :: rest => compactSerialize x ++ "," ++ serializeElems (y :: rest)

/-- Comma-separated serialization of object fields. -/
def serializeFields : List (String × Json) → String
  | [] => ""
  | [(k, v)] => escapeJsonString k ++ ":" ++ compactSerialize v
  | (k, v) :: f :: rest =>
      escapeJsonString k ++ ":" ++ compactSerialize v ++ "," ++ serializeFields (f :: rest)
end

/-!
The Rust code uses `str` primitives (`trim`, `strip_prefix`, `strip_suffix`,
`split`, `parse::<usize>`); we embed them as structurally recursive
character-list functions (Lean's own `String` loops do not reduce inside
the kernel).  Rust's `trim` strips Unicode whitespace; the embedded `trim`
strips ASCII whitespace, which is all any claim exercises.
-/

/-- Character-list core of `str::strip_prefix`. -/
def stripPrefixChars : List Char → List Char → Option (List Char)
  | [], s => some s
  | _ :: _, [] => none
  | p :: ps, c :: cs => if p = c then stripPrefixChars ps cs else none

/-- `str::strip_prefix`. -/
def stripPrefixStr (p s : String) : Option String :=
  (stripPrefixChars p.data s.data).map String.mk

/-- `str::strip_suffix` for a single-character suffix. -/
def stripSuffixChar (c : Char) (s : String) : Option String :=
  match s.data.reverse with
  | x :: rest => if x = c then some (String.mk rest.reverse) else none
  | [] => none

/-- `str::trim`. -/
def strTrim (s : String) : String :=
  String.mk (((s.data.dropWhile Char.isWhitespace).reverse.dropWhile Char.isWhitespace).reverse)

/-- Rust `str::trim_matches(c)`: strip every leading and trailing
occurrence of `c`. -/
def trimMatchesChar (c : Char) (s : String) : String :=
  String.mk (((s.data.dropWhile (· = c)).reverse.dropWhile (· = c)).reverse)

/-- `str::split(c)`: like Rust's, an empty input yields one empty piece and
a trailing separator yields a trailing empty piece. -/
def splitOnChar (c : Char) : List Char → List (List Char)
  | [] => [[]]
  | x :: rest =>
    if x = c then [] :: splitOnChar c rest
    else
      match splitOnChar c rest with
      | piece :: pieces => (x :: piece) :: pieces
      | [] => [[x]]

/-- `str::split('.')` producing strings. -/
def splitDots (s : String) : List String :=
  (splitOnChar '.' s.data).map String.mk

/-- `str::parse::<usize>` restricted to plain digit strings (the source
also accepts a leading `+`, which no template uses). -/
def parseUsize (s : String) : Option Nat :=
  if s.data ≠ [] ∧ s.data.all Char.isDigit then
    some (s.data.foldl (fun a c => a * 10 + (c.toNat - '0'.toNat)) 0)
  else none

/-- ASCII-lowercase a string (the case-insensitivity of header names). -/
def strToLower (s : String) : String :=
  String.mk (s.data.map Char.toLower)

/-- `axum` header-map lookup: case-insensitive on the header name
(HTTP header names are normalized), returning the first matching value. -/
def headerGet (hs : List (String × String)) (name : String) : Option String :=
  (hs.find? (fun p => strToLower p.1 == strToLower name)).map Prod.snd

/-- `HeaderMap::contains_key`, case-insensitive like `headerGet`. -/
def headerContains (hs : List (String × String)) (name : String) : Bool :=
  (headerGet hs name).isSome

/-- `InterpolationContext` from `src/interpolation.rs`: per-request data the
templates are expanded against.  `subrequestResults` is the `results` map;
insertion prepends (see the conventions note). -/
structure InterpolationContext where
  headers : List (String × String)
  pathParams : List (String × String)
  queryParams : List (String × String)
  body : Option String
  method : String
  subrequestResults : List (String × Json)

/-- `InterpolationContext::add_subrequest_result`. -/
def InterpolationContext.addSubrequestResult (ctx : InterpolationContext)
    (name : String) (result : Json) : InterpolationContext :=
  { ctx with subrequestResults := (name, result) :: ctx.subrequestResults }


/-- One step of the JSON-path walk in
`InterpolationContext::extract_subrequest_value`: object key lookup, array
indexing by a decimal segment, `null` everywhere else. -/
def jsonNavStep (v : Json) (part : String) : Json :=
  match v with
  | .obj fields => (fields.lookup part).getD .null
  | .arr elems =>
    match parseUsize part with
    | some i => (elems.get? i).getD .null
    | none => .null
  | _ => .null

/-- The final scalar-to-string conversion at the end of
`extract_subrequest_value`. -/
def jsonToDisplay : Json → String
  | .str s => s
  | .num n => toString n
  | .bool b => if b then "true" else "false"
  | .null => ""
  | v => compactSerialize v

/-- `InterpolationContext::extract_subrequest_value`: resolve
`NAME[.SEG]*` against the stored subrequest results. -/
def extractSubrequestValue (ctx : InterpolationContext) (path : String) : String :=
  match splitDots path with
  | [] => ""
  | name :: segs =>
    match ctx.subrequestResults.lookup name with
    | some result =>
      if segs.isEmpty then compactSerialize result
      else jsonToDisplay (segs.foldl jsonNavStep result)
    | none => ""

/-- `InterpolationContext::evaluate_expression`: the branch chain over the
trimmed expression; unrecognized expressions are re-emitted (with the
trimmed text) between `${` and `}`. -/
def evaluateExpression (ctx : InterpolationContext) (rawExpr : String) : String :=
  let expr := strTrim rawExpr
  let headerHit : Option String :=
    match stripPrefixStr "request.headers[" expr with
    | some headerExpr =>
      match stripSuffixChar ']' headerExpr with
      | some inner =>
        let headerName := trimMatchesChar '\'' (trimMatchesChar '"' inner)
        some ((headerGet ctx.headers headerName).getD "")
      | none => none
    | none => none
  match headerHit with
  | some v => v
  | none =>
    match stripPrefixStr "request.path." expr with
    | some p => (ctx.pathParams.lookup p).getD ""
    | none =>
      match stripPrefixStr "request.query." expr with
      | some p => (ctx.queryParams.lookup p).getD ""
      | none =>
        if expr = "request.body" then ctx.body.getD ""
        else if expr = "request.method" then ctx.method
        else
          match stripPrefixStr "subrequest." expr with
          | some sub => extractSubrequestValue ctx sub
          | none => "$\x7b" ++ expr ++ "\x7d"

/-- Split a character list at the first closing brace; `some (a, b)` means
the input is `a ++ '}' :: b` with no `'}'` in `a`. -/
def splitAtCloseBrace : List Char → Option (List Char × List Char)
  | [] => none
  | c :: rest =>
    if c = '\x7d' then some ([], rest)
    else
      match splitAtCloseBrace rest with
      | some (a, b) => some (c :: a, b)
      | none => none

/-- A regex match of `\$\{([^}]+)\}` anchored at the head of the list:
`some (inner, after)` when the list starts `${inner}` with `inner` nonempty
and free of `}`, and `after` is everything past the closing brace. -/
def matchExpr : List Char → Option (List Char × List Char)
  | '$' :: '\x7b' :: rest =>
    (match splitAtCloseBrace rest with
     | some (inner, after) => if inner.isEmpty then none else some (inner, after)
     | none => none)
  | _ => none

/-- The scan of `Regex::replace_all` over the interpolation pattern
`\$\{([^}]+)\}` in `InterpolationContext::interpolate`: each
non-overlapping leftmost match `${EXPR}` is replaced by `ev EXPR`; every
other character is copied verbatim.  The `fuel` argument only makes the
recursion structural; any `fuel ≥ l.length` computes the full scan
(`interpolateCharsF_congr`). -/
def interpolateCharsF (ev : String → String) : Nat → List Char → List Char
  | _, [] => []
  | 0, l => l
  | fuel + 1, c :: rest =>
    match matchExpr (c :: rest) with
    | some (inner, after) => (ev (String.mk inner)).data ++ interpolateCharsF ev fuel after
    | none => c :: interpolateCharsF ev fuel rest

/-- `InterpolationContext::interpolate`. -/
def InterpolationContext.interpolate (ctx : InterpolationContext) (template : String) : String :=
  String.mk (interpolateCharsF (evaluateExpression ctx) template.data.length template.data)

/-- `Condition` from `src/config/mod.rs`: the recursive condition tree for
conditional subrequest execution. -/
inductive Condition where
  | always
  | fieldExists (field : String)
  | fieldEquals (field value : String)
  | fieldMatches (field pattern : String)
  | headerExists (header : String)
  | headerEquals (header value : String)
  | queryExists (param : String)
  | queryEquals (param value : String)
  | and (conditions : List Condition)
  | or (conditions : List Condition)
  | not (condition : Condition)

mutual
/-- `evaluate_condition` from `src/conditions.rs`.  `rmatch pattern value`
abstracts `Regex::new(pattern)` + `is_match(value)`, already returning
`false` when the pattern does not compile. -/
def evaluateCondition (rmatch : String → String → Bool) (cond : Condition)
    (ctx : InterpolationContext) : Bool :=
  match cond with
  | .always => true
  | .fieldExists field =>
    (ctx.pathParams.lookup field).isSome || (ctx.queryParams.lookup field).isSome
  | .fieldEquals field value =>
    match ctx.pathParams.lookup field with
    | some fieldValue => fieldValue == value
    | none =>
      match ctx.queryParams.lookup field with
      | some fieldValue => fieldValue == value
      | none => false
  | .fieldMatches field pattern =>
    match ctx.pathParams.lookup field with
    | some fieldValue => rmatch pattern fieldValue
    | none =>
      match ctx.queryParams.lookup field with
      | some fieldValue => rmatch pattern fieldValue
      | none => false
  | .headerExists header => headerContains ctx.headers header
  | .headerEquals header value =>
    match headerGet ctx.headers header with
    | some headerValue => headerValue == value
    | none => false
  | .queryExists param => (ctx.queryParams.lookup param).isSome
  | .queryEquals param value =>
    match ctx.queryParams.lookup param with
    | some paramValue => paramValue == value
    | none => false
  | .and conditions => evaluateConditionAll rmatch conditions ctx
  | .or conditions => evaluateConditionAny rmatch conditions ctx
  | .not condition => !evaluateCondition rmatch condition ctx

/-- `conditions.iter().all(...)` over a condition list. -/
def evaluateConditionAll (rmatch : String → String → Bool) (conds : List Condition)
    (ctx : InterpolationContext) : Bool :=
  match conds with
  | [] => true
  | c :: rest => evaluateCondition rmatch c ctx && evaluateConditionAll rmatch rest ctx

/-- `conditions.iter().any(...)` over a condition list. -/
def evaluateConditionAny (rmatch : String → String → Bool) (conds : List Condition)
    (ctx : InterpolationContext) : Bool :=
  match conds with
  | [] => false
  | c :: rest => evaluateCondition rmatch c ctx || evaluateConditionAny rmatch rest ctx
end

/-- `HttpSubrequestConfig` from `src/config/mod.rs`. -/
structure HttpSubrequestConfig where
  uri : String
  method : String
  headers : List (String × String)
  body : Option String
  query_params : List (String × String)

/-- `SqlSubrequestConfig`. -/
structure SqlSubrequestConfig where
  query : String
  params : List String

/-- `MongoOperation`. -/
inductive MongoOperation where
  | find (filter : String) (limit : Option Int)
  | findOne (filter : String)
  | insert (document : String)
  | update (filter update : String)
  | delete (filter : String)

/-- `MongodbSubrequestConfig`. -/
structure MongodbSubrequestConfig where
  collection : String
  operation : MongoOperation

/-- `RedisOperation` (`Exists` is spelled `exists'`; `exists` is reserved). -/
inductive RedisOperation where
  | get (key : String)
  | set (key value : String) (expiration : Option Nat)
  | del (key : String)
  | exists' (key : String)
  | hget (key field : String)
  | hset (key field value : String)

/-- `RedisSubrequestConfig`. -/
structure RedisSubrequestConfig where
  operation : RedisOperation

/-- `SubrequestTypeConfig`: the type-tagged backend operation. -/
inductive SubrequestTypeConfig where
  | http (c : HttpSubrequestConfig)
  | postgres (c : SqlSubrequestConfig)
  | mysql (c : SqlSubrequestConfig)
  | sqlite (c : SqlSubrequestConfig)
  | mongodb (c : MongodbSubrequestConfig)
  | redis (c : RedisSubrequestConfig)

/-- `SubrequestConfig` from `src/config/mod.rs`. -/
structure SubrequestConfig where
  name : Option String
  client_id : String
  condition : Option Condition
  depends_on : List String
  config : SubrequestTypeConfig

/-- `ExecutionMode`. -/
inductive ExecutionMode where
  | parallel
  | sequential

/-- `ResponseTransform` from `src/config/mod.rs`; `field_mappings` is a map
embedded as an association list. -/
structure ResponseTransform where
  filter : Option String
  field_mappings : List (String × String)
  include_fields : List String
  exclude_fields : List String
  template : Option String

/-- `RouteConfig` (the `traffic_split` / `traffic_mirror` fields are
consumed only by out-of-scope middleware and are not modelled). -/
structure RouteConfig where
  method : String
  path : String
  subrequests : List SubrequestConfig
  response_transform : Option ResponseTransform
  execution_mode : ExecutionMode

/-- The part of `Config` the route handler reads. -/
structure Config where
  routes : List RouteConfig

/-- `AppError` from `src/routes/handler.rs`. -/
inductive AppError where
  | clientNotFound (id : String)
  | subrequestFailed (msg : String)
  | invalidConfig (msg : String)
  | routeNotFound
  | circularDependency

/-- The status code chosen by `AppError::into_response`. -/
def AppError.statusCode : AppError → Nat
  | .clientNotFound _ => 500
  | .subrequestFailed _ => 502
  | .invalidConfig _ => 500
  | .routeNotFound => 404
  | .circularDependency => 500

/-- The error message chosen by `AppError::into_response`. -/
def AppError.message : AppError → String
  | .clientNotFound msg => msg
  | .subrequestFailed msg => msg
  | .invalidConfig msg => msg
  | .routeNotFound => "Route not found"
  | .circularDependency => "Circular dependency detected in subrequests"

/-- `AppError::into_response`: status plus the `{"error": …}` body. -/
def AppError.intoResponse (e : AppError) : Nat × Json :=
  (e.statusCode, .obj [("error", .str e.message)])

/-- `serde_json::Value::get` with a string key: object field lookup. -/
def jsonGetKey (v : Json) (k : String) : Option Json :=
  match v with
  | .obj fields => fields.lookup k
  | _ => none

/-- Index of the first occurrence of a character (`str::find(c)`). -/
def charIndexOf (c : Char) : List Char → Option Nat
  | [] => none
  | x :: rest =>
    if x = c then some 0
    else (charIndexOf c rest).map (· + 1)

/-- `parse_array_access` from `src/transform.rs`: recognize `field[idx]`.
The source slices `part[start+1..end]`; when the first `]` precedes the
first `[` that slice panics — such inputs are modelled as no-match
(the slice is clamped to empty, so the index fails to parse). -/
def parseArrayAccess (part : String) : Option (String × Nat) :=
  match charIndexOf '[' part.data with
  | some start =>
    match charIndexOf ']' part.data with
    | some e =>
      let field := String.mk (part.data.take start)
      let indexStr := String.mk ((part.data.drop (start + 1)).take (e - (start + 1)))
      match parseUsize indexStr with
      | some index => some (field, index)
      | none => none
    | none => none
  | none => none

/-- The segment walk shared by `apply_filter` and `extract_field_value` in
`src/transform.rs`; a non-array at an index segment aborts with `null`. -/
def applyFilterParts : Json → List String → Json
  | current, [] => current
  | current, part :: rest =>
    match parseArrayAccess part with
    | some (field, index) =>
      let current1 := if field ≠ "" then (jsonGetKey current field).getD .null else current
      match current1 with
      | .arr elems => applyFilterParts ((elems.get? index).getD .null) rest
      | _ => .null
    | none => applyFilterParts ((jsonGetKey current part).getD .null) rest

/-- `apply_filter`. -/
def applyFilter (value : Json) (filter : String) : Json :=
  applyFilterParts value (splitDots filter)

/-- `extract_field_value` (same walk as `apply_filter`, over a template
path). -/
def extractFieldValue (data : Json) (path : String) : Json :=
  applyFilterParts data (splitDots path)

mutual
/-- `apply_field_mappings`: recursive key rename.  (The source rebuilds a
`BTreeMap`, which would merge colliding renamed keys and re-sort; the
association list keeps the original order — no claim renames onto an
existing key.) -/
def applyFieldMappings (value : Json) (mappings : List (String × String)) : Json :=
  match value with
  | .obj fields => .obj (applyFieldMappingsFields fields mappings)
  | .arr elems => .arr (applyFieldMappingsElems elems mappings)
  | v => v

/-- Field-by-field rename. -/
def applyFieldMappingsFields : List (String × Json) → List (String × String) →
    List (String × Json)
  | [], _ => []
  | (k, v) :: rest, mappings =>
    ((mappings.lookup k).getD k, applyFieldMappings v mappings) ::
      applyFieldMappingsFields rest mappings

/-- Element-by-element recursion for arrays. -/
def applyFieldMappingsElems : List Json → List (String × String) → List Json
  | [], _ => []
  | v :: rest, mappings =>
    applyFieldMappings v mappings :: applyFieldMappingsElems rest mappings
end

mutual
/-- `filter_fields`: include/exclude key filtering at every object depth
(`incl` / `excl` are the source's `include` / `exclude`; `include` is
reserved in Lean). -/
def filterFields (value : Json) (incl excl : List String) : Json :=
  match value with
  | .obj fields => .obj (filterFieldsFields fields incl excl)
  | .arr elems => .arr (filterFieldsElems elems incl excl)
  | v => v

/-- Field-by-field include/exclude. -/
def filterFieldsFields : List (String × Json) → List String → List String →
    List (String × Json)
  | [], _, _ => []
  | (k, v) :: rest, incl, excl =>
    let shouldInclude :=
      if !incl.isEmpty then incl.contains k else !(excl.contains k)
    if shouldInclude then
      (k, filterFields v incl excl) :: filterFieldsFields rest incl excl
    else filterFieldsFields rest incl excl

/-- Element-by-element recursion for arrays. -/
def filterFieldsElems : List Json → List String → List String → List Json
  | [], _, _ => []
  | v :: rest, incl, excl =>
    filterFields v incl excl :: filterFieldsElems rest incl excl
end

/-- A regex match of `\$\{response\.([^}]+)\}` anchored at the head:
`some (path, after)` when the list starts `${response.path}` with `path`
nonempty and `}`-free. -/
def matchResponseExpr (l : List Char) : Option (List Char × List Char) :=
  match stripPrefixChars ("$\x7bresponse.".data) l with
  | some rest =>
    match splitAtCloseBrace rest with
    | some (path, after) => if path.isEmpty then none else some (path, after)
    | none => none
  | none => none

/-- `captures_iter` over `\$\{response\.([^}]+)\}`: the list of
`(full match, path)` pairs, leftmost and non-overlapping.  `fuel` only
makes the recursion structural (any `fuel ≥ l.length` suffices). -/
def findResponseMatches : Nat → List Char → List (String × String)
  | _, [] => []
  | 0, _ => []
  | fuel + 1, c :: rest =>
    match matchResponseExpr (c :: rest) with
    | some (path, after) =>
      ("$\x7bresponse." ++ String.mk path ++ "\x7d", String.mk path) ::
        findResponseMatches fuel after
    | none => findResponseMatches fuel rest

/-- `str::replace`: replace every non-overlapping occurrence of `pat`
(`pat` is never empty where this is used).  `fuel` only makes the recursion
structural. -/
def replaceChars (pat repl : List Char) : Nat → List Char → List Char
  | _, [] => []
  | 0, l => l
  | fuel + 1, c :: rest =>
    match stripPrefixChars pat (c :: rest) with
    | some after => repl ++ replaceChars pat repl fuel after
    | none => c :: replaceChars pat repl fuel rest

/-- `String::replace` on strings. -/
def strReplace (s pat repl : String) : String :=
  String.mk (replaceChars pat.data repl.data s.data.length s.data)

/-- `interpolate_response_data` from `src/transform.rs`: for every
`${response.path}` match of the original template, replace all of its
occurrences in the accumulated result with the extracted value. -/
def interpolateResponseData (template : String) (data : Json) : String :=
  (findResponseMatches template.data.length template.data).foldl
    (fun acc m =>
      strReplace acc m.1 (jsonToDisplay (extractFieldValue data m.2)))
    template

/-- `apply_template`; `parseJson` abstracts `serde_json::from_str`. -/
def applyTemplate (parseJson : String → Option Json) (template : String)
    (data : Json) (ctx : InterpolationContext) : Json :=
  let result := ctx.interpolate template
  let result := interpolateResponseData result data
  match parseJson result with
  | some v => v
  | none => .str result

/-- `apply_transformation` from `src/transform.rs`: filter →
field_mappings → include/exclude → template, each step only when
configured. -/
def applyTransformation (parseJson : String → Option Json) (value : Json)
    (transform : ResponseTransform) (ctx : InterpolationContext) : Json :=
  let result := value
  let result :=
    match transform.filter with
    | some filter => applyFilter result filter
    | none => result
  let result :=
    if !transform.field_mappings.isEmpty then
      applyFieldMappings result transform.field_mappings
    else result
  let result :=
    if !transform.include_fields.isEmpty || !transform.exclude_fields.isEmpty then
      filterFields result transform.include_fields transform.exclude_fields
    else result
  let result :=
    match transform.template with
    | some template => applyTemplate parseJson template result ctx
    | none => result
  result

/-- `HttpResponse` from `src/clients/http.rs`. -/
structure HttpResponseM where
  status : Nat
  headers : List (String × String)
  body : String

/-- `SqlResponse` as consumed by `execute_sql_subrequest`. -/
structure SqlResponseM where
  rows : List Json
  row_count : Nat

/-- `MongoResponse` as consumed by `execute_mongodb_subrequest`. -/
structure MongoResponseM where
  operation_type : String
  documents : Json
  count : Int

/-- `RedisResponse` as consumed by `execute_redis_subrequest`. -/
structure RedisResponseM where
  operation_type : String
  value : Json

/-- The behavior of one `HttpClient::execute_request` call, abstracted as a
function of the (already interpolated) arguments.  The retry/circuit-breaker
internals of that method are modelled separately by `executeRequest`. -/
def HttpClientM := String → String → List (String × String) → Option String →
  List (String × String) → Except String HttpResponseM

/-- `SqlClient::execute_query` behavior. -/
def SqlClientM := String → List String → Except String SqlResponseM

/-- `MongodbClient::execute_operation` behavior. -/
def MongoClientM := String → MongoOperation → Except String MongoResponseM

/-- `RedisClient::execute_operation` behavior. -/
def RedisClientM := RedisOperation → Except String RedisResponseM

/-- `ClientManager` from `src/clients/mod.rs`: per-kind client lookup by
`client_id`. -/
structure ClientManager where
  getHttpClient : String → Option HttpClientM
  getSqlClient : String → Option SqlClientM
  getMongodbClient : String → Option MongoClientM
  getRedisClient : String → Option RedisClientM

/-- `execute_http_subrequest` from `src/routes/handler.rs`: interpolate
uri/headers/body/query, call the client, wrap the response in the result
envelope (fields listed in `BTreeMap` order). -/
def executeHttpSubrequest (cm : ClientManager) (client_id : String)
    (config : HttpSubrequestConfig) (ctx : InterpolationContext) :
    Except AppError Json :=
  match cm.getHttpClient client_id with
  | none => .error (.clientNotFound client_id)
  | some client =>
    let uri := ctx.interpolate config.uri
    let headers := config.headers.map (fun p => (p.1, ctx.interpolate p.2))
    let body := config.body.map (fun b => ctx.interpolate b)
    let query_params := config.query_params.map (fun p => (p.1, ctx.interpolate p.2))
    match client config.method uri headers body query_params with
    | .error e => .error (.subrequestFailed e)
    | .ok response =>
      .ok (.obj [("body", .str response.body),
                 ("client_id", .str client_id),
                 ("headers", .obj (response.headers.map (fun p => (p.1, .str p.2)))),
                 ("status", .num response.status),
                 ("type", .str "http")])

/-- `execute_sql_subrequest`. -/
def executeSqlSubrequest (cm : ClientManager) (client_id : String)
    (config : SqlSubrequestConfig) (ctx : InterpolationContext) :
    Except AppError Json :=
  match cm.getSqlClient client_id with
  | none => .error (.clientNotFound client_id)
  | some client =>
    let query := ctx.interpolate config.query
    let params := config.params.map (fun p => ctx.interpolate p)
    match client query params with
    | .error e => .error (.subrequestFailed e)
    | .ok response =>
      .ok (.obj [("client_id", .str client_id),
                 ("row_count", .num response.row_count),
                 ("rows", .arr response.rows),
                 ("type", .str "sql")])

/-- `interpolate_mongo_operation`. -/
def interpolateMongoOperation (operation : MongoOperation)
    (ctx : InterpolationContext) : MongoOperation :=
  match operation with
  | .find filter limit => .find (ctx.interpolate filter) limit
  | .findOne filter => .findOne (ctx.interpolate filter)
  | .insert document => .insert (ctx.interpolate document)
  | .update filter update => .update (ctx.interpolate filter) (ctx.interpolate update)
  | .delete filter => .delete (ctx.interpolate filter)

/-- `execute_mongodb_subrequest`. -/
def executeMongodbSubrequest (cm : ClientManager) (client_id : String)
    (config : MongodbSubrequestConfig) (ctx : InterpolationContext) :
    Except AppError Json :=
  match cm.getMongodbClient client_id with
  | none => .error (.clientNotFound client_id)
  | some client =>
    let interpolated_operation := interpolateMongoOperation config.operation ctx
    match client config.collection interpolated_operation with
    | .error e => .error (.subrequestFailed e)
    | .ok response =>
      .ok (.obj [("client_id", .str client_id),
                 ("collection", .str config.collection),
                 ("count", .num response.count),
                 ("documents", response.documents),
                 ("operation", .str response.operation_type),
                 ("type", .str "mongodb")])

/-- `interpolate_redis_operation`. -/
def interpolateRedisOperation (operation : RedisOperation)
    (ctx : InterpolationContext) : RedisOperation :=
  match operation with
  | .get key => .get (ctx.interpolate key)
  | .set key value expiration =>
    .set (ctx.interpolate key) (ctx.interpolate value) expiration
  | .del key => .del (ctx.interpolate key)
  | .exists' key => .exists' (ctx.interpolate key)
  | .hget key field => .hget (ctx.interpolate key) (ctx.interpolate field)
  | .hset key field value =>
    .hset (ctx.interpolate key) (ctx.interpolate field) (ctx.interpolate value)

/-- `execute_redis_subrequest`. -/
def executeRedisSubrequest (cm : ClientManager) (client_id : String)
    (config : RedisSubrequestConfig) (ctx : InterpolationContext) :
    Except AppError Json :=
  match cm.getRedisClient client_id with
  | none => .error (.clientNotFound client_id)
  | some client =>
    let interpolated_operation := interpolateRedisOperation config.operation ctx
    match client interpolated_operation with
    | .error e => .error (.subrequestFailed e)
    | .ok response =>
      .ok (.obj [("client_id", .str client_id),
                 ("operation", .str response.operation_type),
                 ("type", .str "redis"),
                 ("value", response.value)])

/-- `execute_single_subrequest`: dispatch on the type-tagged operation. -/
def executeSingleSubrequest (cm : ClientManager) (subrequest : SubrequestConfig)
    (ctx : InterpolationContext) : Except AppError Json :=
  match subrequest.config with
  | .http http_config => executeHttpSubrequest cm subrequest.client_id http_config ctx
  | .postgres sql_config => executeSqlSubrequest cm subrequest.client_id sql_config ctx
  | .mysql sql_config => executeSqlSubrequest cm subrequest.client_id sql_config ctx
  | .sqlite sql_config => executeSqlSubrequest cm subrequest.client_id sql_config ctx
  | .mongodb mongo_config => executeMongodbSubrequest cm subrequest.client_id mongo_config ctx
  | .redis redis_config => executeRedisSubrequest cm subrequest.client_id redis_config ctx

/-- One scan of the subrequest list inside the `loop` of
`build_execution_order` (`src/routes/handler.rs`): collect into the current
wave every not-yet-scheduled subrequest whose dependencies are all in
`executed`, inserting the names of selected subrequests into `executed`
*immediately*, so later list entries see them within the same pass. -/
def buildPass (waves : List (List Nat)) :
    List (Nat × SubrequestConfig) → List Nat → List String → List Nat × List String
  | [], wave, executed => (wave, executed)
  | (idx, subrequest) :: rest, wave, executed =>
    match subrequest.name with
    | some name =>
      if executed.contains name then buildPass waves rest wave executed
      else if subrequest.depends_on.all (fun dep => executed.contains dep) then
        buildPass waves rest (wave ++ [idx]) (name :: executed)
      else buildPass waves rest wave executed
    | none =>
      if waves.any (fun w => w.contains idx) then buildPass waves rest wave executed
      else if subrequest.depends_on.all (fun dep => executed.contains dep) then
        buildPass waves rest (wave ++ [idx]) executed
      else buildPass waves rest wave executed

/-- The `loop` of `build_execution_order`: repeat passes until one adds
nothing.  `fuel` only makes the recursion structural: every productive pass
schedules at least one fresh index, so `srs.length + 1` passes always reach
the empty-pass exit. -/
def buildLoop (srs : List SubrequestConfig) :
    Nat → List (List Nat) → List String → List (List Nat)
  | 0, waves, _ => waves
  | fuel + 1, waves, executed =>
    let (wave, executed') := buildPass waves srs.enum [] executed
    if wave.isEmpty then waves
    else buildLoop srs fuel (waves ++ [wave]) executed'

/-- `build_execution_order`: the dependency waves, or `CircularDependency`
when not every subrequest was scheduled. -/
def buildExecutionOrder (srs : List SubrequestConfig) :
    Except AppError (List (List Nat)) :=
  let waves := buildLoop srs (srs.length + 1) [] []
  if (waves.map List.length).sum = srs.length then .ok waves
  else .error .circularDependency

/-- Orchestration events: which subrequests were dispatched (and under
which context snapshot) and which were skipped by a false condition. -/
inductive ExecEvent where
  | dispatched (idx : Nat) (ctx : InterpolationContext)
  | skipped (idx : Nat)

/-- `execute_sequential` from `src/routes/handler.rs` (with the running
index made explicit for the event trace).  Returns the results, the final
mutated context, and the events. -/
def executeSequentialAux (rmatch : String → String → Bool) (cm : ClientManager) :
    List SubrequestConfig → Nat → InterpolationContext →
    Except AppError (List Json) × InterpolationContext × List ExecEvent
  | [], _, ctx => (.ok [], ctx, [])
  | subrequest :: rest, idx, ctx =>
    let pass :=
      match subrequest.condition with
      | some condition => evaluateCondition rmatch condition ctx
      | none => true
    if !pass then
      let (r, ctx', evs) := executeSequentialAux rmatch cm rest (idx + 1) ctx
      (r, ctx', .skipped idx :: evs)
    else
      match executeSingleSubrequest cm subrequest ctx with
      | .error e => (.error e, ctx, [.dispatched idx ctx])
      | .ok result =>
        let ctx' :=
          match subrequest.name with
          | some name => ctx.addSubrequestResult name result
          | none => ctx
        let (r, ctx'', evs) := executeSequentialAux rmatch cm rest (idx + 1) ctx'
        (match r with
         | .ok results => .ok (result :: results)
         | .error e => .error e,
         ctx'', .dispatched idx ctx :: evs)

/-- `execute_sequential`, from the head of the list. -/
def executeSequential (rmatch : String → String → Bool) (cm : ClientManager)
    (subrequests : List SubrequestConfig) (ctx : InterpolationContext) :
    Except AppError (List Json) × InterpolationContext × List ExecEvent :=
  executeSequentialAux rmatch cm subrequests 0 ctx

/-- The future-building loop of one wave in `execute_parallel`: evaluate
each member's condition against the wave-start snapshot and produce the
`(idx, name, result)` triples of the dispatched members, in wave order
(`join_all` preserves future order). -/
def runWave (rmatch : String → String → Bool) (cm : ClientManager)
    (srs : List SubrequestConfig) (ctxSnap : InterpolationContext) :
    List Nat → List (Nat × Option String × Except AppError Json) × List ExecEvent
  | [] => ([], [])
  | idx :: restWave =>
    match srs.get? idx with
    | none => runWave rmatch cm srs ctxSnap restWave
      -- unreachable: wave indices come from `enumerate` over `srs`
    | some subrequest =>
      let pass :=
        match subrequest.condition with
        | some condition => evaluateCondition rmatch condition ctxSnap
        | none => true
      let (triples, evs) := runWave rmatch cm srs ctxSnap restWave
      if pass then
        ((idx, subrequest.name, executeSingleSubrequest cm subrequest ctxSnap) :: triples,
         .dispatched idx ctxSnap :: evs)
      else (triples, .skipped idx :: evs)

/-- The result-collection loop of one wave: store named results into the
context, append `(idx, value)` pairs, fail on the first error. -/
def collectWave :
    List (Nat × Option String × Except AppError Json) → InterpolationContext →
    List (Nat × Json) → Except AppError (InterpolationContext × List (Nat × Json))
  | [], ctx, acc => .ok (ctx, acc)
  | (_, _, .error e) :: _, _, _ => .error e
  | (idx, name, .ok value) :: rest, ctx, acc =>
    let ctx' :=
      match name with
      | some subreq_name => ctx.addSubrequestResult subreq_name value
      | none => ctx
    collectWave rest ctx' (acc ++ [(idx, value)])

/-- The wave loop of `execute_parallel`. -/
def executeParallelWaves (rmatch : String → String → Bool) (cm : ClientManager)
    (srs : List SubrequestConfig) :
    List (List Nat) → InterpolationContext → List (Nat × Json) →
    Except AppError (List (Nat × Json)) × List ExecEvent
  | [], _, acc => (.ok acc, [])
  | wave :: restWaves, ctx, acc =>
    let (triples, evs) := runWave rmatch cm srs ctx wave
    match collectWave triples ctx acc with
    | .ok (ctx', acc') =>
      let (r, evs') := executeParallelWaves rmatch cm srs restWaves ctx' acc'
      (r, evs ++ evs')
    | .error e => (.error e, evs)

/-- `all_results.sort_by_key(|(idx, _)| *idx)` (a stable sort; indices are
pairwise distinct whenever it runs). -/
def sortByIdx (l : List (Nat × Json)) : List (Nat × Json) :=
  List.insertionSort (fun a b => a.1 ≤ b.1) l

/-- `execute_parallel` from `src/routes/handler.rs`: build the waves, run
them, then sort the collected results by original index. -/
def executeParallel (rmatch : String → String → Bool) (cm : ClientManager)
    (subrequests : List SubrequestConfig) (ctx : InterpolationContext) :
    Except AppError (List Json) × List ExecEvent :=
  match buildExecutionOrder subrequests with
  | .error e => (.error e, [])
  | .ok waves =>
    match executeParallelWaves rmatch cm subrequests waves ctx [] with
    | (.ok all_results, evs) => (.ok ((sortByIdx all_results).map Prod.snd), evs)
    | (.error e, evs) => (.error e, evs)

/-- The inbound request as the handler sees it (the raw `path` is consumed
by the router model only). -/
structure RequestData where
  method : String
  path : String
  pathParams : List (String × String)
  queryParams : List (String × String)
  headers : List (String × String)
  body : String

/-- `handle_route` from `src/routes/handler.rs`: build the context, take
the *first* configured route (the source ignores the request's method and
path here), run its subrequests under its execution mode, wrap the results
in the `{subrequests, count}` envelope, apply the optional transform.
`requestContext` is the context built at the top of `handle_route`. -/
def requestContext (req : RequestData) : InterpolationContext :=
  { headers := req.headers, pathParams := req.pathParams,
    queryParams := req.queryParams, body := some req.body,
    method := req.method, subrequestResults := [] }

/-- `handle_route`, continued: dispatch on the first configured route. -/
def handleRoute (rmatch : String → String → Bool)
    (parseJson : String → Option Json) (cm : ClientManager) (config : Config)
    (req : RequestData) : Except AppError Json × List ExecEvent :=
  let ctx : InterpolationContext := requestContext req
  match config.routes.head? with
  | some route_config =>
    let (results?, ctxAfter, evs) :=
      match route_config.execution_mode with
      | .sequential => executeSequential rmatch cm route_config.subrequests ctx
      | .parallel =>
        let (r, evs) := executeParallel rmatch cm route_config.subrequests ctx
        (r, ctx, evs)
    match results? with
    | .ok results =>
      let response_data : Json :=
        .obj [("count", .num results.length), ("subrequests", .arr results)]
      let response_data :=
        match route_config.response_transform with
        | some transform => applyTransformation parseJson response_data transform ctxAfter
        | none => response_data
      (.ok response_data, evs)
    | .error e => (.error e, evs)
  | none => (.error .routeNotFound, [])

/-- The router from `src/routes/mod.rs` plus `axum`'s fallback: every
configured route path is registered with an any-method matcher, so a
request whose path equals some registered path reaches `handle_route`
(whatever its method); any other path gets `axum`'s bare 404. -/
def routerDispatch (rmatch : String → String → Bool)
    (parseJson : String → Option Json) (cm : ClientManager) (config : Config)
    (req : RequestData) : Nat × Json :=
  if config.routes.any (fun r => r.path == req.path) then
    match (handleRoute rmatch parseJson cm config req).1 with
    | .ok body => (200, body)
    | .error e => e.intoResponse
  else (404, .null)

/-- `RetryConfig` fields used by `HttpClient::execute_request`. -/
structure RetryConfigM where
  max_retries : Nat
  initial_backoff_ms : Nat
  max_backoff_ms : Nat

/-- The slice of `HttpClientConfig` that `execute_request` consults, with
the circuit breaker reduced to its presence (its `failsafe` state machine
is external; `permitted` below is what `is_call_permitted` returns). -/
structure HttpClientConfigM where
  base_url : String
  headers : List (String × String)
  retry : Option RetryConfigM
  has_circuit_breaker : Bool

/-- Outcome of one `request.send().await`: a protocol-complete response
(whatever its status) or a transport-level failure. -/
inductive AttemptOutcome where
  | ok (resp : HttpResponseM)
  | err (msg : String)

/-- Interactions of `execute_request` with the circuit breaker. -/
inductive BreakerEvent where
  | permitCheck
  | recordSuccess
  | recordFailure
  deriving DecidableEq

/-- What one `execute_request` call did. -/
structure ExecRequestResult where
  result : Except String HttpResponseM
  breakerEvents : List BreakerEvent
  attempts : Nat

/-- The `loop` of `execute_request`: attempt `i` takes `script i`; a
response returns immediately, a failure retries while attempts remain. -/
def retryLoop (script : Nat → AttemptOutcome) :
    Nat → Nat → Except String HttpResponseM × Nat
  | i, remaining =>
    match script i with
    | .ok r => (.ok r, i + 1)
    | .err m =>
      match remaining with
      | 0 => (.error m, i + 1)
      | r + 1 => retryLoop script (i + 1) r

/-- `HttpClient::execute_request` from `src/clients/http.rs`: the breaker
is consulted once before the loop; an open breaker rejects with no attempt;
a success records one success with the breaker; exhausting all retries
records one failure.  The network is abstracted as `script`. -/
def executeRequest (cfg : HttpClientConfigM) (permitted : Bool)
    (script : Nat → AttemptOutcome) : ExecRequestResult :=
  if cfg.has_circuit_breaker && !permitted then
    { result := .error "Circuit breaker is open",
      breakerEvents := [.permitCheck], attempts := 0 }
  else
    let max_retries := match cfg.retry with | some r => r.max_retries | none => 0
    let checkEvents := if cfg.has_circuit_breaker then [BreakerEvent.permitCheck] else []
    match retryLoop script 0 max_retries with
    | (.ok r, n) =>
      { result := .ok r,
        breakerEvents :=
          checkEvents ++ (if cfg.has_circuit_breaker then [BreakerEvent.recordSuccess] else []),
        attempts := n }
    | (.error m, n) =>
      { result := .error m,
        breakerEvents :=
          checkEvents ++ (if cfg.has_circuit_breaker then [BreakerEvent.recordFailure] else []),
        attempts := n }


/-! ## Concrete fixtures used by the claim theorems -/

/-- A regex oracle under which no pattern matches (no fixture uses
`FieldMatches`). -/
def rm0 : String → String → Bool := fun _ _ => false

/-- A JSON-parse oracle that always fails (no fixture uses a template). -/
def pj0 : String → Option Json := fun _ => none

/-- An empty-request interpolation context. -/
def ctxE : InterpolationContext :=
  { headers := [], pathParams := [], queryParams := [], body := some "",
    method := "GET", subrequestResults := [] }

/-- A backend whose response body is `{"id":"42"}`. -/
def clientA : HttpClientM := fun _ _ _ _ _ => .ok ⟨200, [], "\x7b\"id\":\"42\"\x7d"⟩

/-- A backend that echoes the (already interpolated) uri as its body, making
the captured uri observable in the envelope. -/
def clientEcho : HttpClientM := fun _ uri _ _ _ => .ok ⟨200, [], uri⟩

/-- Client catalog: `cA` returns `{"id":"42"}`, `cB` echoes the uri. -/
def cm1 : ClientManager :=
  { getHttpClient := fun id =>
      if id == "cA" then some clientA
      else if id == "cB" then some clientEcho
      else none,
    getSqlClient := fun _ => none,
    getMongodbClient := fun _ => none,
    getRedisClient := fun _ => none }

/-- Subrequest `A`: no dependencies, returns `{"id":"42"}`. -/
def srA : SubrequestConfig :=
  { name := some "A", client_id := "cA", condition := none, depends_on := [],
    config := .http { uri := "/a", method := "GET", headers := [], body := none,
                      query_params := [] } }

/-- Subrequest `B`: depends on `A`, uri `/u/${subrequest.A.body.id}`. -/
def srB : SubrequestConfig :=
  { name := some "B", client_id := "cB", condition := none, depends_on := ["A"],
    config := .http { uri := "/u/$\x7bsubrequest.A.body.id\x7d", method := "GET",
                      headers := [], body := none, query_params := [] } }

/-- The stored result of `A` under `cm1`. -/
def envA : Json :=
  .obj [("body", .str "\x7b\"id\":\"42\"\x7d"), ("client_id", .str "cA"),
        ("headers", .obj []), ("status", .num 200), ("type", .str "http")]

/-- The stored result of `B` when its captured uri was `/u/`. -/
def envB : Json :=
  .obj [("body", .str "/u/"), ("client_id", .str "cB"),
        ("headers", .obj []), ("status", .num 200), ("type", .str "http")]

/-- A pair of mutually dependent subrequests (a dependency cycle). -/
def srX : SubrequestConfig :=
  { name := some "X", client_id := "cA", condition := none, depends_on := ["Y"],
    config := .http { uri := "/x", method := "GET", headers := [], body := none,
                      query_params := [] } }

/-- The other half of the cycle. -/
def srY : SubrequestConfig :=
  { name := some "Y", client_id := "cA", condition := none, depends_on := ["X"],
    config := .http { uri := "/y", method := "GET", headers := [], body := none,
                      query_params := [] } }

/-- C2 fixture: first configured route, `GET /a`, with no subrequests. -/
def c2Route1 : RouteConfig :=
  { method := "GET", path := "/a", subrequests := [],
    response_transform := none, execution_mode := .parallel }

/-- C2 fixture: second configured route, `POST /b`, with one subrequest. -/
def c2Route2 : RouteConfig :=
  { method := "POST", path := "/b", subrequests := [srA],
    response_transform := none, execution_mode := .parallel }

/-- C2 fixture: the two-route configuration. -/
def c2Config : Config := ⟨[c2Route1, c2Route2]⟩

/-- C2 fixture: a request whose `(method, path)` is exactly `c2Route2`'s. -/
def c2Req : RequestData :=
  { method := "POST", path := "/b", pathParams := [], queryParams := [],
    headers := [], body := "" }

/-- C2 fixture: a request whose path matches no configured route. -/
def c2ReqMiss : RequestData :=
  { method := "GET", path := "/zzz", pathParams := [], queryParams := [],
    headers := [], body := "" }

/-- C3 fixture: client with one retry and a circuit breaker. -/
def cfg3 : HttpClientConfigM :=
  { base_url := "http://backend", headers := [], retry := some ⟨1, 10, 5000⟩,
    has_circuit_breaker := true }

/-- C3 fixture: the network fails once (transport error), then succeeds. -/
def script3 : Nat → AttemptOutcome := fun i =>
  if i = 0 then .err "connection reset" else .ok ⟨200, [], "ok"⟩

/-- C6 fixture: plain HTTP client configuration (no retry, no breaker). -/
def c6HttpCfg : HttpClientConfigM :=
  { base_url := "http://backend", headers := [], retry := none,
    has_circuit_breaker := false }

/-- C6 fixture: a client whose one network attempt yields `resp`, routed
through the real `executeRequest` loop. -/
def c6Client (resp : HttpResponseM) : HttpClientM :=
  fun _ _ _ _ _ => (executeRequest c6HttpCfg true (fun _ => .ok resp)).result

/-- C6 fixture: catalog serving `c6Client resp` for every id. -/
def c6cm (resp : HttpResponseM) : ClientManager :=
  { getHttpClient := fun _ => some (c6Client resp),
    getSqlClient := fun _ => none,
    getMongodbClient := fun _ => none,
    getRedisClient := fun _ => none }

/-- C6 fixture: one-subrequest route. -/
def c6Config : Config :=
  ⟨[{ method := "GET", path := "/x",
      subrequests := [{ name := none, client_id := "c6", condition := none,
                        depends_on := [],
                        config := .http { uri := "/x", method := "GET", headers := [],
                                          body := none, query_params := [] } }],
      response_transform := none, execution_mode := .parallel }]⟩

/-- C6 fixture: the matching request. -/
def c6Req : RequestData :=
  { method := "GET", path := "/x", pathParams := [], queryParams := [],
    headers := [], body := "" }

/-- C6 fixture: the expected envelope — the backend's status appears in the
subrequest result verbatim and the outer response is still a 200. -/
def c6Envelope (resp : HttpResponseM) : Json :=
  .obj [("count", .num 1),
        ("subrequests", .arr
          [.obj [("body", .str resp.body), ("client_id", .str "c6"),
                 ("headers", .obj (resp.headers.map (fun p => (p.1, .str p.2)))),
                 ("status", .num resp.status), ("type", .str "http")]])]

/-- Whether a character list contains the two-character opener `${`
anywhere (no opener means the regex scan can find no match). -/
def containsDollarBrace : List Char → Bool
  | c1 :: c2 :: rest => (c1 = '$' && c2 = '\x7b') || containsDollarBrace (c2 :: rest)
  | _ => false

/-- Whether an expression hits one of `evaluate_expression`'s recognized
branches (computed, like the source, on the trimmed text). -/
def isRecognizedExpr (rawExpr : String) : Bool :=
  let expr := strTrim rawExpr
  (match stripPrefixStr "request.headers[" expr with
   | some headerExpr => (stripSuffixChar ']' headerExpr).isSome
   | none => false) ||
  (stripPrefixStr "request.path." expr).isSome ||
  (stripPrefixStr "request.query." expr).isSome ||
  (expr == "request.body") || (expr == "request.method") ||
  (stripPrefixStr "subrequest." expr).isSome

/-- The indices of the dispatch events, in order. -/
def dispatchedIdxs (events : List ExecEvent) : List Nat :=
  events.filterMap (fun e =>
    match e with
    | .dispatched i _ => some i
    | .skipped _ => none)

/-- The subject index of an orchestration event. -/
def eventIdx : ExecEvent → Nat
  | .dispatched i _ => i
  | .skipped i => i

/-- A set `S` of subrequest indices none of which can ever be scheduled:
every member has some dependency name whose holders (if any) all lie in
`S`.  This covers both dependency cycles and dangling `depends_on` names
(no holder at all). -/
def SBlocked (srs : List SubrequestConfig) (S : Nat → Prop) : Prop :=
  ∀ i, S i → ∃ sr, srs.get? i = some sr ∧
    ∃ d ∈ sr.depends_on,
      ∀ j sr', srs.get? j = some sr' → sr'.name = some d → S j

/-- Invariant of the wave-construction state: `sched` is the list of
scheduled indices so far and `exec` the recorded names. -/
structure BuildInv (srs : List SubrequestConfig) (S : Nat → Prop)
    (sched : List Nat) (exec : List String) : Prop where
  bounds : ∀ i ∈ sched, ∃ sr, srs.get? i = some sr
  nodup : sched.Nodup
  namesRecorded : ∀ i sr n, srs.get? i = some sr → sr.name = some n →
    i ∈ sched → n ∈ exec
  execFromSched : ∀ n ∈ exec, ∃ i sr, srs.get? i = some sr ∧
    sr.name = some n ∧ i ∈ sched
  avoidsS : ∀ i ∈ sched, ¬ S i

/-- The `(idx, value)` pair a wave triple contributes when its result was
a success. -/
def okPair : Nat × Option String × Except AppError Json → Option (Nat × Json)
  | (i, _, .ok v) => some (i, v)
  | (_, _, .error _) => none

instance : IsTotal (Nat × Json) (fun a b => a.1 ≤ b.1) :=
  ⟨fun a b => Nat.le_total a.1 b.1⟩

instance : IsTrans (Nat × Json) (fun a b => a.1 ≤ b.1) :=
  ⟨fun _ _ _ => Nat.le_trans⟩

/-- C10 fixture: subrequest `X` guarded by a condition that is false for
an empty request (`queryExists "q"`). -/
def srXc : SubrequestConfig :=
  { name := some "X", client_id := "cA", condition := some (.queryExists "q"),
    depends_on := [],
    config := .http { uri := "/x", method := "GET", headers := [], body := none,
                      query_params := [] } }

/-- C10 fixture: subrequest `D` depending on `X`, its uri referencing
`X`'s result, dispatched through the echo backend. -/
def srD : SubrequestConfig :=
  { name := some "D", client_id := "cB", condition := none, depends_on := ["X"],
    config := .http { uri := "/d/$\x7bsubrequest.X.body.id\x7d", method := "GET",
                      headers := [], body := none, query_params := [] } }

/-- C10 fixture: `D`'s stored result — the echoed uri shows the reference
to the skipped `X` expanded to the empty string. -/
def envD : Json :=
  .obj [("body", .str "/d/"), ("client_id", .str "cB"),
        ("headers", .obj []), ("status", .num 200), ("type", .str "http")]

/-! ## Helper lemmas and theorems -/

theorem splitAtCloseBrace_length :
    ∀ {l : List Char} {a b : List Char}, splitAtCloseBrace l = some (a, b) →
      l.length = a.length + 1 + b.length := by
  intro l
  induction l with
  | nil => intro a b h; simp [splitAtCloseBrace] at h
  | cons c rest ih =>
    intro a b h
    by_cases hc : c = '\x7d'
    · simp [splitAtCloseBrace, hc] at h
      obtain ⟨ha, hb⟩ := h
      subst ha; subst hb
      simp
      omega
    · simp only [splitAtCloseBrace, if_neg hc] at h
      cases hsplit : splitAtCloseBrace rest with
      | none => rw [hsplit] at h; simp at h
      | some ab =>
        obtain ⟨a', b'⟩ := ab
        rw [hsplit] at h
        simp at h
        obtain ⟨ha, hb⟩ := h
        subst ha; subst hb
        have := ih hsplit
        simp [this]
        omega

theorem matchExpr_length {l inner after : List Char}
    (h : matchExpr l = some (inner, after)) :
    l.length = inner.length + 3 + after.length := by
  unfold matchExpr at h
  split at h
  · next rest =>
    cases hs : splitAtCloseBrace rest with
    | none => rw [hs] at h; simp at h
    | some ab =>
      obtain ⟨a, b⟩ := ab
      rw [hs] at h
      by_cases ha : a.isEmpty
      · simp [ha] at h
      · simp [ha] at h
        obtain ⟨h1, h2⟩ := h
        subst h1; subst h2
        have := splitAtCloseBrace_length hs
        simp [this]
        omega
  · simp at h

theorem interpolateCharsF_congr (ev : String → String) :
    ∀ (n f g : Nat) (l : List Char), l.length ≤ n → l.length ≤ f → l.length ≤ g →
      interpolateCharsF ev f l = interpolateCharsF ev g l := by
  intro n
  induction n with
  | zero =>
    intro f g l hn _ _
    have : l = [] := List.eq_nil_of_length_eq_zero (Nat.le_zero.mp hn)
    subst this
    cases f <;> cases g <;> rfl
  | succ n ih =>
    intro f g l hn hf hg
    cases l with
    | nil => cases f <;> cases g <;> rfl
    | cons c rest =>
      obtain ⟨f', rfl⟩ : ∃ f', f = f' + 1 := ⟨f - 1, by simp at hf; omega⟩
      obtain ⟨g', rfl⟩ : ∃ g', g = g' + 1 := ⟨g - 1, by simp at hg; omega⟩
      show (match matchExpr (c :: rest) with
            | some (inner, after) => (ev (String.mk inner)).data ++ interpolateCharsF ev f' after
            | none => c :: interpolateCharsF ev f' rest) =
           (match matchExpr (c :: rest) with
            | some (inner, after) => (ev (String.mk inner)).data ++ interpolateCharsF ev g' after
            | none => c :: interpolateCharsF ev g' rest)
      cases hm : matchExpr (c :: rest) with
      | none =>
        simp only []
        simp only [List.length_cons] at hn hf hg
        rw [ih f' g' rest (by omega) (by omega) (by omega)]
      | some p =>
        obtain ⟨inner, after⟩ := p
        simp only []
        have := matchExpr_length hm
        simp only [List.length_cons] at hn hf hg this
        rw [ih f' g' after (by omega) (by omega) (by omega)]

/-- C9: For every JSON value and every interpolation context, applying a
`ResponseTransform` with filter `null`, empty `field_mappings`, empty
include and exclude lists, and `null` template returns the input value
unchanged — the empty transform is the identity. -/
theorem c9_empty_transform_identity (parseJson : String → Option Json)
    (value : Json) (ctx : InterpolationContext) :
    applyTransformation parseJson value
      { filter := none, field_mappings := [], include_fields := [],
        exclude_fields := [], template := none } ctx = value := rfl

/-- C2 (code bug): the spec requires dispatch by exact `(method, path)`,
but `handle_route` serves `config.routes.first()` regardless of both.  With
routes `[GET /a (no subrequests), POST /b (one subrequest)]`, the request
`POST /b` — which matches the second route's method and path exactly — is
served the *first* route's definition (an empty envelope, `count = 0`)
instead of the matching route's single-subrequest result.  Only a path that
matches no registered route gets a 404. -/
theorem c2_first_route_served :
    routerDispatch rm0 pj0 cm1 c2Config c2Req =
      (200, .obj [("count", .num 0), ("subrequests", .arr [])]) ∧
    c2Req.method = c2Route2.method ∧ c2Req.path = c2Route2.path ∧
    c2Route2.subrequests.length = 1 ∧
    c2Req.method ≠ c2Route1.method ∧ c2Req.path ≠ c2Route1.path ∧
    routerDispatch rm0 pj0 cm1 c2Config c2ReqMiss = (404, .null) :=
  ⟨rfl, rfl, rfl, rfl, by decide, by decide, rfl⟩

/-- C1 (counterexample): with subrequests `[A, B]`, `B.depends_on = [A]`
and `A` returning `{"id":"42"}`, the wave computation inserts `A`'s name
into the scheduled set *during* the scan, so `B` lands in the **same** wave
`[[0, 1]]` — not a strictly later one — and `B`'s snapshot (the wave-start
context, shown in its dispatch event) holds no result for `A`: its uri
`/u/${subrequest.A.body.id}` expands to `/u/` (the echo backend makes the
captured uri observable as `envB`'s body), not `/u/42`. -/
theorem c1_counterexample :
    buildExecutionOrder [srA, srB] = .ok [[0, 1]] ∧
    (executeParallel rm0 cm1 [srA, srB] ctxE).2 =
      [.dispatched 0 ctxE, .dispatched 1 ctxE] ∧
    (executeParallel rm0 cm1 [srA, srB] ctxE).1 = .ok [envA, envB] ∧
    ctxE.interpolate "/u/$\x7bsubrequest.A.body.id\x7d" = "/u/" ∧
    ("/u/" : String) ≠ "/u/42" :=
  ⟨rfl, rfl, rfl, rfl, by decide⟩

/-- C3 (counterexample): with `max_retries = 1`, a circuit breaker, and a
network that fails once then succeeds, `execute_request` makes 2 attempts
but consults the breaker only once (the check sits *before* the retry
loop), and records nothing with the breaker for the mid-retry transport
failure (a failure is recorded only after all retries are exhausted) — so
neither "asks the breaker before each attempt" nor "each transport failure
increments consecutive_failures" holds. -/
theorem c3_counterexample :
    executeRequest cfg3 true script3 =
      { result := .ok ⟨200, [], "ok"⟩,
        breakerEvents := [.permitCheck, .recordSuccess], attempts := 2 } ∧
    (executeRequest cfg3 true script3).breakerEvents.count .permitCheck = 1 ∧
    (executeRequest cfg3 true script3).attempts = 2 ∧ (1 : Nat) ≠ 2 ∧
    script3 0 = .err "connection reset" ∧
    (executeRequest cfg3 true script3).breakerEvents.count .recordFailure = 0 :=
  ⟨rfl, rfl, rfl, by decide, rfl, rfl⟩

theorem retryLoop_error (script : Nat → AttemptOutcome) :
    ∀ (remaining i : Nat) (m : String) (n : Nat),
      retryLoop script i remaining = (.error m, n) → ∃ j, script j = .err m := by
  intro remaining
  induction remaining with
  | zero =>
    intro i m n h
    rw [retryLoop] at h
    cases hs : script i with
    | ok r => rw [hs] at h; simp at h
    | err m0 =>
      rw [hs] at h
      simp at h
      exact ⟨i, by rw [hs, h.1]⟩
  | succ r ih =>
    intro i m n h
    rw [retryLoop] at h
    cases hs : script i with
    | ok resp => rw [hs] at h; simp at h
    | err m0 => rw [hs] at h; exact ih (i + 1) m n h

/-- C3 (amended): the breaker is consulted exactly once, before the first
attempt; an open breaker is surfaced immediately with zero attempts (so it
cannot count against retries); a successful call records exactly one
success with the breaker (when one is configured) and no failure; and at
most one failure is recorded with the breaker per call — only after all
retries are exhausted. -/
theorem c3_amended (cfg : HttpClientConfigM) (permitted : Bool)
    (script : Nat → AttemptOutcome) :
    ((executeRequest cfg permitted script).breakerEvents.count .permitCheck
        = if cfg.has_circuit_breaker then 1 else 0) ∧
    (cfg.has_circuit_breaker = true → permitted = false →
      (executeRequest cfg permitted script).result = .error "Circuit breaker is open" ∧
      (executeRequest cfg permitted script).attempts = 0) ∧
    (∀ resp, (executeRequest cfg permitted script).result = .ok resp →
      (executeRequest cfg permitted script).breakerEvents.count .recordSuccess
          = (if cfg.has_circuit_breaker then 1 else 0) ∧
      (executeRequest cfg permitted script).breakerEvents.count .recordFailure = 0) ∧
    ((executeRequest cfg permitted script).breakerEvents.count .recordFailure ≤ 1) := by
  unfold executeRequest
  cases hcb : cfg.has_circuit_breaker with
  | false =>
    simp only [Bool.false_and, Bool.false_eq_true, if_false]
    rcases hr : retryLoop script 0 (match cfg.retry with | some r => r.max_retries | none => 0)
      with ⟨res, n⟩
    cases res <;> simp
  | true =>
    cases hp : permitted with
    | false =>
      simp
    | true =>
      simp only [Bool.not_true, Bool.and_false, Bool.false_eq_true, if_false]
      rcases hr : retryLoop script 0 (match cfg.retry with | some r => r.max_retries | none => 0)
        with ⟨res, n⟩
      cases res <;> simp

/-- C3 (amended) witness: at the concrete breaker-open input the theorem
yields an immediate rejection with zero attempts, and at the concrete
fail-once-then-succeed input the successful call records one success and no
failure with the breaker. -/
theorem c3_amended_witness :
    ((executeRequest cfg3 false script3).result = .error "Circuit breaker is open" ∧
     (executeRequest cfg3 false script3).attempts = 0) ∧
    (executeRequest cfg3 true script3).breakerEvents.count .recordSuccess = 1 ∧
    (executeRequest cfg3 true script3).breakerEvents.count .recordFailure = 0 :=
  ⟨(c3_amended cfg3 false script3).2.1 rfl rfl,
   ((c3_amended cfg3 true script3).2.2.1 ⟨200, [], "ok"⟩ rfl).1,
   ((c3_amended cfg3 true script3).2.2.1 ⟨200, [], "ok"⟩ rfl).2⟩

/-- C6: a protocol-complete HTTP exchange is a success regardless of its
status code — (i) whenever the breaker admits the call and the first
attempt yields a response, `execute_request` returns it as `Ok`, whatever
its status; (ii) through the whole gateway a one-subrequest route answers
200 with the backend's status (4xx/5xx included) surfaced inside the
envelope; (iii) an error can arise only from a breaker rejection or a
transport-level failure. -/
theorem c6_http_status_not_error :
    (∀ (cfg : HttpClientConfigM) (permitted : Bool) (script : Nat → AttemptOutcome)
       (resp : HttpResponseM),
       (cfg.has_circuit_breaker && !permitted) = false →
       script 0 = .ok resp →
       (executeRequest cfg permitted script).result = .ok resp) ∧
    (∀ resp : HttpResponseM,
       routerDispatch rm0 pj0 (c6cm resp) c6Config c6Req = (200, c6Envelope resp)) ∧
    (∀ (cfg : HttpClientConfigM) (permitted : Bool) (script : Nat → AttemptOutcome)
       (m : String),
       (executeRequest cfg permitted script).result = .error m →
       (cfg.has_circuit_breaker && !permitted) = true ∨ ∃ i, script i = .err m) := by
  refine ⟨?_, ?_, ?_⟩
  · intro cfg permitted script resp hb h0
    unfold executeRequest
    rw [hb]
    simp only [Bool.false_eq_true, if_false]
    rw [retryLoop, h0]
  · intro resp
    rfl
  · intro cfg permitted script m herr
    by_cases hb : (cfg.has_circuit_breaker && !permitted) = true
    · exact Or.inl hb
    · right
      unfold executeRequest at herr
      rw [eq_false_of_ne_true hb] at herr
      simp only [Bool.false_eq_true, if_false] at herr
      rcases hr : retryLoop script 0 (match cfg.retry with | some r => r.max_retries | none => 0)
        with ⟨res, n⟩
      rw [hr] at herr
      cases res with
      | ok r => simp at herr
      | error m0 =>
        simp at herr
        subst herr
        exact retryLoop_error script _ 0 m0 n hr

/-- C6 witness: a backend 404 flows through as an `Ok` result and a gateway
200 with `"status": 404` in the envelope. -/
theorem c6_witness :
    (executeRequest c6HttpCfg true (fun _ => .ok ⟨404, [], "nf"⟩)).result =
      .ok ⟨404, [], "nf"⟩ ∧
    routerDispatch rm0 pj0 (c6cm ⟨404, [], "nf"⟩) c6Config c6Req =
      (200, c6Envelope ⟨404, [], "nf"⟩) :=
  ⟨c6_http_status_not_error.1 c6HttpCfg true (fun _ => .ok ⟨404, [], "nf"⟩)
      ⟨404, [], "nf"⟩ rfl rfl,
   c6_http_status_not_error.2.1 ⟨404, [], "nf"⟩⟩

theorem containsDollarBrace_tail {c : Char} {rest : List Char}
    (h : containsDollarBrace (c :: rest) = false) :
    containsDollarBrace rest = false := by
  cases rest with
  | nil => rfl
  | cons c2 rest' =>
    rw [containsDollarBrace] at h
    exact (Bool.or_eq_false_iff.mp h).2

theorem matchExpr_nil : matchExpr [] = none := rfl

theorem matchExpr_single (c : Char) : matchExpr [c] = none := by
  unfold matchExpr
  split
  · next heq => simp at heq
  · rfl

theorem matchExpr_none_pair {c c2 : Char} (rest : List Char)
    (h : ¬(c = '$' ∧ c2 = '\x7b')) : matchExpr (c :: c2 :: rest) = none := by
  unfold matchExpr
  split
  · next heq =>
    injection heq with h1 heq2
    injection heq2 with h2 _
    exact absurd ⟨h1, h2⟩ h
  · rfl

theorem matchExpr_none_of_noDB : ∀ {l : List Char},
    containsDollarBrace l = false → matchExpr l = none := by
  intro l h
  match l with
  | [] => rfl
  | [c] => exact matchExpr_single c
  | c :: c2 :: rest =>
    apply matchExpr_none_pair
    rintro ⟨rfl, rfl⟩
    rw [containsDollarBrace] at h
    simp at h

theorem interpolateCharsF_id (ev : String → String) :
    ∀ (f : Nat) (l : List Char), l.length ≤ f →
      containsDollarBrace l = false → interpolateCharsF ev f l = l := by
  intro f
  induction f with
  | zero =>
    intro l h1 _
    have : l = [] := List.eq_nil_of_length_eq_zero (Nat.le_zero.mp h1)
    subst this
    rfl
  | succ f ih =>
    intro l h1 h2
    cases l with
    | nil => rfl
    | cons c rest =>
      rw [interpolateCharsF, matchExpr_none_of_noDB h2]
      simp only [List.length_cons] at h1
      rw [ih rest (by omega) (containsDollarBrace_tail h2)]

theorem splitAtCloseBrace_append (e b : List Char) (h : '\x7d' ∉ e) :
    splitAtCloseBrace (e ++ '\x7d' :: b) = some (e, b) := by
  induction e with
  | nil => simp [splitAtCloseBrace]
  | cons c e' ih =>
    have hc : ¬(c = '\x7d') := fun hh => h (hh ▸ List.mem_cons_self c e')
    simp only [List.cons_append, splitAtCloseBrace, if_neg hc, List.append_eq]
    rw [ih (fun hm => h (List.mem_cons_of_mem _ hm))]

theorem matchExpr_opener (e b : List Char) (he : e ≠ []) (hbr : '\x7d' ∉ e) :
    matchExpr ('$' :: '\x7b' :: (e ++ '\x7d' :: b)) = some (e, b) := by
  simp only [matchExpr]
  rw [splitAtCloseBrace_append e b hbr]
  cases e with
  | nil => exact absurd rfl he
  | cons x e' => rfl

theorem interpolateCharsF_splice (ev : String → String) :
    ∀ (f : Nat) (a e b : List Char),
      (a ++ '$' :: '\x7b' :: (e ++ '\x7d' :: b)).length ≤ f →
      containsDollarBrace a = false → e ≠ [] → '\x7d' ∉ e →
      interpolateCharsF ev f (a ++ '$' :: '\x7b' :: (e ++ '\x7d' :: b)) =
        a ++ (ev (String.mk e)).data ++ interpolateCharsF ev b.length b := by
  intro f
  induction f with
  | zero =>
    intro a e b hlen _ _ _
    simp [List.length_append] at hlen
  | succ f ih =>
    intro a e b hlen ha he hbr
    cases a with
    | nil =>
      simp only [List.nil_append]
      rw [interpolateCharsF, matchExpr_opener e b he hbr]
      simp only [List.nil_append]
      have hb : b.length ≤ f := by
        simp [List.length_append] at hlen
        omega
      rw [interpolateCharsF_congr ev f f b.length b hb hb (Nat.le_refl _)]
    | cons c a' =>
      have hmE : matchExpr (c :: (a' ++ '$' :: '\x7b' :: (e ++ '\x7d' :: b))) = none := by
        cases a' with
        | nil =>
          apply matchExpr_none_pair
          rintro ⟨rfl, h2⟩
          exact absurd h2 (by decide)
        | cons x a'' =>
          apply matchExpr_none_pair
          rintro ⟨rfl, rfl⟩
          rw [containsDollarBrace] at ha
          simp at ha
      rw [List.cons_append, interpolateCharsF, hmE]
      simp only [List.length_cons, List.cons_append] at hlen ⊢
      rw [ih a' e b (by omega) (containsDollarBrace_tail ha) he hbr]

theorem evaluateExpression_fallback (ctx : InterpolationContext) (e : String)
    (h : isRecognizedExpr e = false) :
    evaluateExpression ctx e = "$\x7b" ++ strTrim e ++ "\x7d" := by
  unfold isRecognizedExpr at h
  simp only [Bool.or_eq_false_iff] at h
  obtain ⟨⟨⟨⟨⟨hH, hP⟩, hQ⟩, hB⟩, hM⟩, hS⟩ := h
  have hB' : ¬(strTrim e = "request.body") := fun hb => by rw [hb] at hB; simp at hB
  have hM' : ¬(strTrim e = "request.method") := fun hm => by rw [hm] at hM; simp at hM
  have hp : stripPrefixStr "request.path." (strTrim e) = none := by
    cases hx : stripPrefixStr "request.path." (strTrim e) with
    | none => rfl
    | some p => rw [hx] at hP; simp at hP
  have hq : stripPrefixStr "request.query." (strTrim e) = none := by
    cases hx : stripPrefixStr "request.query." (strTrim e) with
    | none => rfl
    | some p => rw [hx] at hQ; simp at hQ
  have hsub : stripPrefixStr "subrequest." (strTrim e) = none := by
    cases hx : stripPrefixStr "subrequest." (strTrim e) with
    | none => rfl
    | some p => rw [hx] at hS; simp at hS
  unfold evaluateExpression
  cases hh : stripPrefixStr "request.headers[" (strTrim e) with
  | none => simp only [hh, hp, hq, if_neg hB', if_neg hM', hsub]
  | some headerExpr =>
    rw [hh] at hH
    dsimp only at hH
    have hs : stripSuffixChar ']' headerExpr = none := by
      cases hx : stripSuffixChar ']' headerExpr with
      | none => rfl
      | some inner => rw [hx] at hH; simp at hH
    simp only [hh, hs, hp, hq, if_neg hB', if_neg hM', hsub]

/-- C8 (counterexample): the unrecognized expression `" x "` inside
`${ x }` is *not* left literally in the output: the fallback re-emits the
trimmed expression, producing `${x}` ≠ `${ x }`. -/
theorem c8_counterexample :
    ctxE.interpolate "$\x7b x \x7d" = "$\x7bx\x7d" ∧
    ("$\x7bx\x7d" : String) ≠ "$\x7b x \x7d" ∧
    isRecognizedExpr " x " = false :=
  ⟨rfl, by decide, rfl⟩

/-- C8 (amended): expand replaces each non-overlapping `${EXPR}` occurrence
with its resolved value and returns literal text outside `${...}` verbatim;
recognition is decided on the *trimmed* EXPR, and an unrecognized `${EXPR}`
is re-emitted as `${trim(EXPR)}` — identical to the original occurrence
exactly when EXPR carries no surrounding whitespace. -/
theorem c8_amended :
    (∀ (ctx : InterpolationContext) (s : String),
       containsDollarBrace s.data = false → ctx.interpolate s = s) ∧
    (∀ (ctx : InterpolationContext) (a e b : String),
       containsDollarBrace a.data = false → e.data ≠ [] → '\x7d' ∉ e.data →
       ctx.interpolate (a ++ "$\x7b" ++ e ++ "\x7d" ++ b) =
         a ++ evaluateExpression ctx e ++ ctx.interpolate b) ∧
    (∀ (ctx : InterpolationContext) (e : String), isRecognizedExpr e = false →
       evaluateExpression ctx e = "$\x7b" ++ strTrim e ++ "\x7d") ∧
    (∀ (ctx : InterpolationContext) (e : String), isRecognizedExpr e = false →
       strTrim e = e → evaluateExpression ctx e = "$\x7b" ++ e ++ "\x7d") := by
  refine ⟨?_, ?_, ?_, ?_⟩
  · intro ctx s h
    obtain ⟨sd⟩ := s
    show String.mk (interpolateCharsF (evaluateExpression ctx) sd.length sd) = String.mk sd
    rw [interpolateCharsF_id _ _ _ (Nat.le_refl _) h]
  · intro ctx a e b ha he hbr
    obtain ⟨ad⟩ := a
    obtain ⟨ed⟩ := e
    obtain ⟨bd⟩ := b
    have hd : (String.mk ad ++ "$\x7b" ++ String.mk ed ++ "\x7d" ++ String.mk bd).data
        = ad ++ '$' :: '\x7b' :: (ed ++ '\x7d' :: bd) := by
      show (((ad ++ "$\x7b".data) ++ ed) ++ "\x7d".data) ++ bd = _
      simp [List.append_assoc]
    show String.mk (interpolateCharsF (evaluateExpression ctx) _ _) = _
    rw [hd]
    rw [interpolateCharsF_splice (evaluateExpression ctx) _ ad ed bd (Nat.le_refl _) ha he hbr]
    show String.mk _ = String.mk ((ad ++ (evaluateExpression ctx (String.mk ed)).data)
      ++ interpolateCharsF (evaluateExpression ctx) bd.length bd)
    rw [List.append_assoc]
  · intro ctx e h
    exact evaluateExpression_fallback ctx e h
  · intro ctx e h ht
    rw [evaluateExpression_fallback ctx e h, ht]

/-- C8 (amended) witness: at concrete inputs, literal text passes through
verbatim, `${request.method}` is spliced, and the unrecognized `${x}` (no
surrounding whitespace) is left literally. -/
theorem c8_amended_witness :
    ctxE.interpolate "hello" = "hello" ∧
    ctxE.interpolate "a-$\x7brequest.method\x7d-b" =
      "a-" ++ evaluateExpression ctxE "request.method" ++ ctxE.interpolate "-b" ∧
    evaluateExpression ctxE "x" = "$\x7bx\x7d" :=
  ⟨c8_amended.1 ctxE "hello" rfl,
   c8_amended.2.1 ctxE "a-" "request.method" "-b" rfl (by decide) (by decide),
   c8_amended.2.2.2 ctxE "x" rfl rfl⟩

/-- C7: resolution of `subrequest.NAME[.SEG]*` — through
`evaluate_expression` the expression hands `NAME[.SEG]*` to
`extract_subrequest_value`; with no stored result under `NAME` the value is
the empty string; a bare `NAME` yields the compact JSON of the whole stored
result; otherwise the walk starts at the stored value, a missing key /
out-of-range index steps to JSON `null`, and the final value stringifies as
string → verbatim, number → decimal, boolean → `true`/`false`, null →
empty, composite → compact JSON. -/
theorem c7_subrequest_extraction :
    (∀ (ctx : InterpolationContext) (p : String),
       strTrim ("subrequest." ++ p) = "subrequest." ++ p →
       evaluateExpression ctx ("subrequest." ++ p) = extractSubrequestValue ctx p) ∧
    (∀ (ctx : InterpolationContext) (p name : String) (segs : List String),
       splitDots p = name :: segs →
       ctx.subrequestResults.lookup name = none →
       extractSubrequestValue ctx p = "") ∧
    (∀ (ctx : InterpolationContext) (p name : String) (v : Json),
       splitDots p = [name] →
       ctx.subrequestResults.lookup name = some v →
       extractSubrequestValue ctx p = compactSerialize v) ∧
    (∀ (ctx : InterpolationContext) (p name seg : String) (segs : List String) (v : Json),
       splitDots p = name :: seg :: segs →
       ctx.subrequestResults.lookup name = some v →
       extractSubrequestValue ctx p = jsonToDisplay ((seg :: segs).foldl jsonNavStep v)) ∧
    (∀ (fields : List (String × Json)) (k : String),
       fields.lookup k = none → jsonNavStep (.obj fields) k = .null) ∧
    (∀ (elems : List Json) (k : String) (i : Nat),
       parseUsize k = some i → elems.get? i = none → jsonNavStep (.arr elems) k = .null) ∧
    (∀ s, jsonToDisplay (.str s) = s) ∧
    (∀ n : Int, jsonToDisplay (.num n) = toString n) ∧
    (jsonToDisplay (.bool true) = "true" ∧ jsonToDisplay (.bool false) = "false") ∧
    (jsonToDisplay .null = "") ∧
    (∀ elems, jsonToDisplay (.arr elems) = compactSerialize (.arr elems)) ∧
    (∀ fields, jsonToDisplay (.obj fields) = compactSerialize (.obj fields)) := by
  refine ⟨?_, ?_, ?_, ?_, ?_, ?_, fun _ => rfl, fun _ => rfl, ⟨rfl, rfl⟩, rfl,
          fun _ => rfl, fun _ => rfl⟩
  · intro ctx p ht
    obtain ⟨pd⟩ := p
    unfold evaluateExpression
    rw [ht]
    rfl
  · intro ctx p name segs hsplit hlook
    simp only [extractSubrequestValue, hsplit, hlook]
  · intro ctx p name v hsplit hlook
    simp only [extractSubrequestValue, hsplit, hlook, List.isEmpty_nil, if_true]
  · intro ctx p name seg segs v hsplit hlook
    simp only [extractSubrequestValue, hsplit, hlook, List.isEmpty_cons,
               Bool.false_eq_true, if_false]
  · intro fields k h
    simp [jsonNavStep, h]
  · intro elems k i hp hg
    have hg' : elems[i]? = none := by
      rw [← List.get?_eq_getElem?]
      exact hg
    simp [jsonNavStep, hp, hg']

/-- C7 witness: concrete resolutions against a context storing `A ↦ envA`. -/
theorem c7_witness :
    evaluateExpression (ctxE.addSubrequestResult "A" envA) "subrequest.A.status" =
      extractSubrequestValue (ctxE.addSubrequestResult "A" envA) "A.status" ∧
    extractSubrequestValue ctxE "missing.key" = "" ∧
    extractSubrequestValue (ctxE.addSubrequestResult "A" envA) "A" =
      compactSerialize envA ∧
    extractSubrequestValue (ctxE.addSubrequestResult "A" envA) "A.status" =
      jsonToDisplay (["status"].foldl jsonNavStep envA) ∧
    jsonNavStep (.obj []) "nope" = .null ∧
    jsonNavStep (.arr [.num 7]) "3" = .null :=
  ⟨c7_subrequest_extraction.1 (ctxE.addSubrequestResult "A" envA) "A.status" rfl,
   c7_subrequest_extraction.2.1 ctxE "missing.key" "missing" ["key"] rfl rfl,
   c7_subrequest_extraction.2.2.1 (ctxE.addSubrequestResult "A" envA) "A" "A" envA rfl rfl,
   c7_subrequest_extraction.2.2.2.1 (ctxE.addSubrequestResult "A" envA) "A.status" "A"
     "status" [] envA rfl rfl,
   c7_subrequest_extraction.2.2.2.2.1 [] "nope" rfl,
   c7_subrequest_extraction.2.2.2.2.2.1 [.num 7] "3" 3 rfl rfl⟩

theorem buildPass_inv (srs : List SubrequestConfig) (S : Nat → Prop)
    (hS : SBlocked srs S) (waves : List (List Nat)) :
    ∀ (pairs : List (Nat × SubrequestConfig)) (wave : List Nat) (exec : List String),
      (∀ p ∈ pairs, srs.get? p.1 = some p.2) →
      (pairs.map Prod.fst).Nodup →
      (∀ p ∈ pairs, p.1 ∉ wave) →
      BuildInv srs S (waves.flatten ++ wave) exec →
      BuildInv srs S (waves.flatten ++ (buildPass waves pairs wave exec).1)
        (buildPass waves pairs wave exec).2 := by
  intro pairs
  induction pairs with
  | nil =>
    intro wave exec _ _ _ hinv
    exact hinv
  | cons p rest ih =>
    obtain ⟨idx, sr⟩ := p
    intro wave exec hP1 hP2 hP3 hinv
    have hget : srs.get? idx = some sr := hP1 (idx, sr) (List.mem_cons_self _ _)
    have hP1' : ∀ q ∈ rest, srs.get? q.1 = some q.2 :=
      fun q hq => hP1 q (List.mem_cons_of_mem _ hq)
    have hP2pair : idx ∉ rest.map Prod.fst ∧ (rest.map Prod.fst).Nodup :=
      List.nodup_cons.mp (show (idx :: rest.map Prod.fst).Nodup from hP2)
    have hidxNotRest : idx ∉ rest.map Prod.fst := hP2pair.1
    have hP2' : (rest.map Prod.fst).Nodup := hP2pair.2
    have hP3' : ∀ q ∈ rest, q.1 ∉ wave := fun q hq => hP3 q (List.mem_cons_of_mem _ hq)
    -- a subrequest whose dependencies are all recorded cannot be a member of S
    have hNotS : ∀ (i : Nat) (sri : SubrequestConfig), srs.get? i = some sri →
        sri.depends_on.all (fun dep => exec.contains dep) = true → ¬ S i := by
      intro i sri hgeti hdeps hSi
      obtain ⟨sr0, hget0, d, hd, hall⟩ := hS i hSi
      rw [hgeti] at hget0
      obtain rfl : sri = sr0 := by injection hget0
      have hdexec : d ∈ exec :=
        List.elem_iff.mp (List.all_eq_true.mp hdeps d hd)
      obtain ⟨j, sr', hj, hnamej, hjsched⟩ := hinv.execFromSched d hdexec
      exact hinv.avoidsS j hjsched (hall j sr' hj hnamej)
    rw [buildPass]
    cases hname : sr.name with
    | some n =>
      by_cases hc : exec.contains n = true
      · simp only [hc, if_true]
        exact ih wave exec hP1' hP2' hP3' hinv
      · simp only [hc, if_false, Bool.false_eq_true]
        by_cases hdeps : sr.depends_on.all (fun dep => exec.contains dep) = true
        · simp only [hdeps, if_true]
          -- the fresh named index is appended and its name recorded
          have hfresh : idx ∉ waves.flatten ++ wave := by
            intro hmem
            exact hc (List.elem_iff.mpr (hinv.namesRecorded idx sr n hget hname hmem))
          have hstep : BuildInv srs S (waves.flatten ++ (wave ++ [idx])) (n :: exec) := by
            have hassoc : waves.flatten ++ (wave ++ [idx]) = (waves.flatten ++ wave) ++ [idx] :=
              (List.append_assoc _ _ _).symm
            rw [hassoc]
            refine ⟨?_, ?_, ?_, ?_, ?_⟩
            · intro i hi
              rcases List.mem_append.mp hi with hi | hi
              · exact hinv.bounds i hi
              · obtain rfl : i = idx := List.mem_singleton.mp hi
                exact ⟨sr, hget⟩
            · rw [List.nodup_append]
              exact ⟨hinv.nodup, List.nodup_singleton idx,
                fun a ha hb => hfresh ((List.mem_singleton.mp hb) ▸ ha)⟩
            · intro i sri ni hgeti hnamei hmemi
              rcases List.mem_append.mp hmemi with hmemi | hmemi
              · exact List.mem_cons_of_mem _ (hinv.namesRecorded i sri ni hgeti hnamei hmemi)
              · obtain rfl : i = idx := List.mem_singleton.mp hmemi
                rw [hget] at hgeti
                obtain rfl : sri = sr := by injection hgeti with hh; exact hh.symm
                rw [hname] at hnamei
                obtain rfl : ni = n := by injection hnamei with hh; exact hh.symm
                exact List.mem_cons_self _ _
            · intro m hm
              rcases List.mem_cons.mp hm with rfl | hm
              · exact ⟨idx, sr, hget, hname, List.mem_append_right _ (List.mem_singleton_self _)⟩
              · obtain ⟨i, sri, hgeti, hnamei, hschedi⟩ := hinv.execFromSched m hm
                exact ⟨i, sri, hgeti, hnamei, List.mem_append_left _ hschedi⟩
            · intro i hi
              rcases List.mem_append.mp hi with hi | hi
              · exact hinv.avoidsS i hi
              · obtain rfl : i = idx := List.mem_singleton.mp hi
                exact hNotS _ sr hget hdeps
          refine ih (wave ++ [idx]) (n :: exec) hP1' hP2' ?_ hstep
          · intro q hq hmem
            rcases List.mem_append.mp hmem with hmem | hmem
            · exact hP3' q hq hmem
            · exact hidxNotRest ((List.mem_singleton.mp hmem) ▸ List.mem_map_of_mem Prod.fst hq)
        · simp only [hdeps, if_false, Bool.false_eq_true]
          exact ih wave exec hP1' hP2' hP3' hinv
    | none =>
      by_cases hw : (waves.any fun w => w.contains idx) = true
      · simp only [hw, if_true]
        exact ih wave exec hP1' hP2' hP3' hinv
      · simp only [hw, if_false, Bool.false_eq_true]
        by_cases hdeps : sr.depends_on.all (fun dep => exec.contains dep) = true
        · simp only [hdeps, if_true]
          have hfresh : idx ∉ waves.flatten ++ wave := by
            intro hmem
            rcases List.mem_append.mp hmem with hmem | hmem
            · obtain ⟨w, hwmem, hiw⟩ := List.mem_join.mp hmem
              exact hw (List.any_eq_true.mpr ⟨w, hwmem, List.elem_iff.mpr hiw⟩)
            · exact hP3 (idx, sr) (List.mem_cons_self _ _) hmem
          have hstep : BuildInv srs S (waves.flatten ++ (wave ++ [idx])) exec := by
            have hassoc : waves.flatten ++ (wave ++ [idx]) = (waves.flatten ++ wave) ++ [idx] :=
              (List.append_assoc _ _ _).symm
            rw [hassoc]
            refine ⟨?_, ?_, ?_, ?_, ?_⟩
            · intro i hi
              rcases List.mem_append.mp hi with hi | hi
              · exact hinv.bounds i hi
              · obtain rfl : i = idx := List.mem_singleton.mp hi
                exact ⟨sr, hget⟩
            · rw [List.nodup_append]
              exact ⟨hinv.nodup, List.nodup_singleton idx,
                fun a ha hb => hfresh ((List.mem_singleton.mp hb) ▸ ha)⟩
            · intro i sri ni hgeti hnamei hmemi
              rcases List.mem_append.mp hmemi with hmemi | hmemi
              · exact hinv.namesRecorded i sri ni hgeti hnamei hmemi
              · obtain rfl : i = idx := List.mem_singleton.mp hmemi
                rw [hget] at hgeti
                obtain rfl : sri = sr := by injection hgeti with hh; exact hh.symm
                rw [hname] at hnamei
                cases hnamei
            · intro m hm
              obtain ⟨i, sri, hgeti, hnamei, hschedi⟩ := hinv.execFromSched m hm
              exact ⟨i, sri, hgeti, hnamei, List.mem_append_left _ hschedi⟩
            · intro i hi
              rcases List.mem_append.mp hi with hi | hi
              · exact hinv.avoidsS i hi
              · obtain rfl : i = idx := List.mem_singleton.mp hi
                exact hNotS _ sr hget hdeps
          refine ih (wave ++ [idx]) exec hP1' hP2' ?_ hstep
          · intro q hq hmem
            rcases List.mem_append.mp hmem with hmem | hmem
            · exact hP3' q hq hmem
            · exact hidxNotRest ((List.mem_singleton.mp hmem) ▸ List.mem_map_of_mem Prod.fst hq)
        · simp only [hdeps, if_false, Bool.false_eq_true]
          exact ih wave exec hP1' hP2' hP3' hinv

theorem buildLoop_inv (srs : List SubrequestConfig) (S : Nat → Prop)
    (hS : SBlocked srs S) :
    ∀ (fuel : Nat) (waves : List (List Nat)) (exec : List String),
      BuildInv srs S waves.flatten exec →
      ∃ exec', BuildInv srs S (buildLoop srs fuel waves exec).flatten exec' := by
  intro fuel
  induction fuel with
  | zero => intro waves exec h; exact ⟨exec, h⟩
  | succ fuel ih =>
    intro waves exec h
    have hpass := buildPass_inv srs S hS waves srs.enum [] exec
      (fun p hp => by
        obtain ⟨i, a⟩ := p
        exact List.mk_mem_enum_iff_get?.mp hp)
      (by rw [List.enum_map_fst]; exact List.nodup_range _)
      (fun p _ => List.not_mem_nil p.1)
      (by simpa using h)
    rw [buildLoop]
    rcases hsplit : buildPass waves srs.enum [] exec with ⟨wave, exec2⟩
    rw [hsplit] at hpass
    simp only []
    by_cases hw : wave.isEmpty = true
    · simp only [hw, if_true]
      refine ⟨exec2, ?_⟩
      have : wave = [] := List.isEmpty_iff.mp hw
      subst this
      simpa using hpass
    · simp only [hw, if_false, Bool.false_eq_true]
      refine ih (waves ++ [wave]) exec2 ?_
      rw [List.flatten_append]
      simpa using hpass

theorem buildInv_initial (srs : List SubrequestConfig) (S : Nat → Prop) :
    BuildInv srs S ([] : List (List Nat)).flatten [] := by
  refine ⟨?_, ?_, ?_, ?_, ?_⟩ <;> simp

/-- If a blocked set `S` has a member, `build_execution_order` terminates
with `CircularDependency`, and `execute_parallel` fails before any
dispatch. -/
theorem buildExecutionOrder_blocked (srs : List SubrequestConfig)
    (S : Nat → Prop) (hS : SBlocked srs S) (i0 : Nat) (hi0 : S i0) :
    buildExecutionOrder srs = .error .circularDependency := by
  obtain ⟨exec', hinv⟩ :=
    buildLoop_inv srs S hS (srs.length + 1) [] [] (buildInv_initial srs S)
  have hi0lt : i0 < srs.length := by
    obtain ⟨sr0, hget0, _⟩ := hS i0 hi0
    exact (List.get?_eq_some.mp hget0).choose
  have hi0notin : i0 ∉ (buildLoop srs (srs.length + 1) [] []).flatten :=
    fun hmem => hinv.avoidsS i0 hmem hi0
  have hsub : (buildLoop srs (srs.length + 1) [] []).flatten ⊆
      (List.range srs.length).erase i0 := by
    intro a ha
    have hne : a ≠ i0 := fun he => hi0notin (he ▸ ha)
    rw [List.mem_erase_of_ne hne]
    obtain ⟨sr, hget⟩ := hinv.bounds a ha
    exact List.mem_range.mpr (List.get?_eq_some.mp hget).choose
  have hlen : (buildLoop srs (srs.length + 1) [] []).flatten.length ≤ srs.length - 1 := by
    have := List.Subperm.length_le (List.subperm_of_subset hinv.nodup hsub)
    rwa [List.length_erase_of_mem (List.mem_range.mpr hi0lt), List.length_range] at this
  have hsum : ((buildLoop srs (srs.length + 1) [] []).map List.length).sum ≠ srs.length := by
    rw [← List.length_join]
    omega
  unfold buildExecutionOrder
  simp only [hsum, if_false]

/-- When `build_execution_order` succeeds, the scheduled indices are
pairwise distinct, in bounds, and cover every subrequest index. -/
theorem buildExecutionOrder_ok (srs : List SubrequestConfig)
    (waves : List (List Nat)) (h : buildExecutionOrder srs = .ok waves) :
    waves.flatten.Nodup ∧
    (∀ i ∈ waves.flatten, ∃ sr, srs.get? i = some sr) ∧
    (∀ i sr, srs.get? i = some sr → i ∈ waves.flatten) := by
  obtain ⟨exec', hinv⟩ :=
    buildLoop_inv srs (fun _ => False) (fun i hi => hi.elim) (srs.length + 1) [] []
      (buildInv_initial srs _)
  have hw : buildLoop srs (srs.length + 1) [] [] = waves := by
    unfold buildExecutionOrder at h
    by_cases hsum : ((buildLoop srs (srs.length + 1) [] []).map List.length).sum = srs.length
    · rw [if_pos hsum] at h
      injection h
    · rw [if_neg hsum] at h
      cases h
  rw [hw] at hinv
  refine ⟨hinv.nodup, hinv.bounds, ?_⟩
  have hsum : (waves.map List.length).sum = srs.length := by
    unfold buildExecutionOrder at h
    by_cases hsum : ((buildLoop srs (srs.length + 1) [] []).map List.length).sum = srs.length
    · rwa [hw] at hsum
    · rw [if_neg hsum] at h
      cases h
  have hlen : waves.flatten.length = srs.length := by rw [List.length_join, hsum]
  have hsub : waves.flatten ⊆ List.range srs.length := by
    intro a ha
    obtain ⟨sr, hget⟩ := hinv.bounds a ha
    exact List.mem_range.mpr (List.get?_eq_some.mp hget).choose
  have hperm : waves.flatten.Perm (List.range srs.length) :=
    List.Subperm.perm_of_length_le (List.subperm_of_subset hinv.nodup hsub)
      (by rw [hlen, List.length_range])
  intro i sr hget
  exact hperm.mem_iff.mpr (List.mem_range.mpr (List.get?_eq_some.mp hget).choose)

/-- C5: if some set of subrequests can never be scheduled — each member has
a `depends_on` name all of whose holders are again members (a cycle), or a
name with no holder at all (a dangling dependency) — then wave computation
terminates with `CircularDependency`, `execute_parallel` fails with that
error *before dispatching anything* (its event trace is empty, for every
client catalog), and the error maps to HTTP 500 with the
`Circular dependency detected in subrequests` body. -/
theorem c5_unschedulable_500 (rmatch : String → String → Bool)
    (cm : ClientManager) (srs : List SubrequestConfig)
    (ctx : InterpolationContext) (S : Nat → Prop) (i0 : Nat)
    (hS : SBlocked srs S) (hi0 : S i0) :
    buildExecutionOrder srs = .error .circularDependency ∧
    executeParallel rmatch cm srs ctx = (.error .circularDependency, []) ∧
    AppError.circularDependency.statusCode = 500 ∧
    AppError.circularDependency.intoResponse =
      (500, .obj [("error", .str "Circular dependency detected in subrequests")]) := by
  have hbuild := buildExecutionOrder_blocked srs S hS i0 hi0
  refine ⟨hbuild, ?_, rfl, rfl⟩
  unfold executeParallel
  rw [hbuild]

/-- C5 witness: the two-element cycle `X ↔ Y` is rejected with a 500 and an
empty dispatch trace. -/
theorem c5_witness :
    buildExecutionOrder [srX, srY] = .error .circularDependency ∧
    executeParallel rm0 cm1 [srX, srY] ctxE = (.error .circularDependency, []) ∧
    AppError.circularDependency.statusCode = 500 ∧
    AppError.circularDependency.intoResponse =
      (500, .obj [("error", .str "Circular dependency detected in subrequests")]) := by
  refine c5_unschedulable_500 rm0 cm1 [srX, srY] ctxE (fun i => i = 0 ∨ i = 1) 0 ?_ (Or.inl rfl)
  intro i hi
  rcases hi with rfl | rfl
  · refine ⟨srX, rfl, "Y", by simp [srX], ?_⟩
    intro j sr' hj hn
    match j with
    | 0 =>
      obtain rfl : srX = sr' := by injection hj
      rw [show srX.name = some "X" from rfl] at hn
      exact absurd (by injection hn) (by decide)
    | 1 => exact Or.inr rfl
    | j + 2 => exact absurd hj (by simp [List.get?])
  · refine ⟨srY, rfl, "X", by simp [srY], ?_⟩
    intro j sr' hj hn
    match j with
    | 0 => exact Or.inl rfl
    | 1 => exact Or.inr rfl
    | j + 2 => exact absurd hj (by simp [List.get?])

theorem runWave_spec (rmatch : String → String → Bool) (cm : ClientManager)
    (srs : List SubrequestConfig) (ctxSnap : InterpolationContext) :
    ∀ (wave : List Nat),
      (∀ i ∈ wave, ∃ sr, srs.get? i = some sr) →
      ((runWave rmatch cm srs ctxSnap wave).2.map eventIdx = wave) ∧
      ((runWave rmatch cm srs ctxSnap wave).1.map Prod.fst =
        dispatchedIdxs (runWave rmatch cm srs ctxSnap wave).2) ∧
      List.Sublist ((runWave rmatch cm srs ctxSnap wave).1.map Prod.fst) wave ∧
      (∀ t ∈ (runWave rmatch cm srs ctxSnap wave).1, ∃ sr,
        srs.get? t.1 = some sr ∧ t.2.1 = sr.name ∧
        t.2.2 = executeSingleSubrequest cm sr ctxSnap ∧
        ExecEvent.dispatched t.1 ctxSnap ∈ (runWave rmatch cm srs ctxSnap wave).2) ∧
      (∀ i c, ExecEvent.dispatched i c ∈ (runWave rmatch cm srs ctxSnap wave).2 →
        c = ctxSnap ∧ ∃ sr, srs.get? i = some sr ∧
          (i, sr.name, executeSingleSubrequest cm sr ctxSnap) ∈
            (runWave rmatch cm srs ctxSnap wave).1) ∧
      (∀ i ∈ wave, ExecEvent.skipped i ∉ (runWave rmatch cm srs ctxSnap wave).2 →
        ∃ c, ExecEvent.dispatched i c ∈ (runWave rmatch cm srs ctxSnap wave).2) := by
  intro wave
  induction wave with
  | nil =>
    intro _
    refine ⟨rfl, rfl, List.Sublist.refl _, ?_, ?_, ?_⟩
    · intro t ht; cases ht
    · intro i c hc; cases hc
    · intro i hi; cases hi
  | cons idx restW ih =>
    intro hbnd
    obtain ⟨sr, hg⟩ := hbnd idx (List.mem_cons_self _ _)
    obtain ⟨ih1, ih2, ih3, ih4, ih5, ih6⟩ :=
      ih (fun i hi => hbnd i (List.mem_cons_of_mem _ hi))
    rw [runWave, hg]
    rcases hrec : runWave rmatch cm srs ctxSnap restW with ⟨triples', evs'⟩
    rw [hrec] at ih1 ih2 ih3 ih4 ih5 ih6
    simp only [hrec]
    by_cases hpass : (match sr.condition with
      | some condition => evaluateCondition rmatch condition ctxSnap
      | none => true) = true
    · simp only [hpass, if_true]
      refine ⟨?_, ?_, ?_, ?_, ?_, ?_⟩
      · simp only [List.map_cons, eventIdx, ih1]
      · simp only [List.map_cons, dispatchedIdxs, List.filterMap_cons]
        simp only [dispatchedIdxs] at ih2
        rw [ih2]
      · exact List.Sublist.cons₂ idx ih3
      · intro t ht
        rcases List.mem_cons.mp ht with rfl | ht
        · exact ⟨sr, hg, rfl, rfl, List.mem_cons_self _ _⟩
        · obtain ⟨sr', h1, h2, h3, h4⟩ := ih4 t ht
          exact ⟨sr', h1, h2, h3, List.mem_cons_of_mem _ h4⟩
      · intro i c hc
        rcases List.mem_cons.mp hc with heq | hc
        · obtain ⟨rfl, rfl⟩ : i = idx ∧ c = ctxSnap := by
            injection heq with h1 h2
            exact ⟨h1, h2⟩
          exact ⟨rfl, sr, hg, List.mem_cons_self _ _⟩
        · obtain ⟨hcs, sr', h1, h2⟩ := ih5 i c hc
          exact ⟨hcs, sr', h1, List.mem_cons_of_mem _ h2⟩
      · intro i hi hns
        rcases List.mem_cons.mp hi with rfl | hi
        · exact ⟨ctxSnap, List.mem_cons_self _ _⟩
        · obtain ⟨c, hc⟩ := ih6 i hi (fun hmem => hns (List.mem_cons_of_mem _ hmem))
          exact ⟨c, List.mem_cons_of_mem _ hc⟩
    · simp only [hpass, if_false, Bool.false_eq_true]
      refine ⟨?_, ?_, ?_, ?_, ?_, ?_⟩
      · simp only [List.map_cons, eventIdx, ih1]
      · simp only [dispatchedIdxs, List.filterMap_cons]
        simp only [dispatchedIdxs] at ih2
        rw [ih2]
      · exact List.Sublist.cons idx ih3
      · intro t ht
        obtain ⟨sr', h1, h2, h3, h4⟩ := ih4 t ht
        exact ⟨sr', h1, h2, h3, List.mem_cons_of_mem _ h4⟩
      · intro i c hc
        rcases List.mem_cons.mp hc with heq | hc
        · cases heq
        · exact ih5 i c hc
      · intro i hi hns
        rcases List.mem_cons.mp hi with rfl | hi
        · exact absurd (List.mem_cons_self _ _) hns
        · obtain ⟨c, hc⟩ := ih6 i hi (fun hmem => hns (List.mem_cons_of_mem _ hmem))
          exact ⟨c, List.mem_cons_of_mem _ hc⟩

theorem collectWave_ok :
    ∀ (triples : List (Nat × Option String × Except AppError Json))
      (ctx : InterpolationContext) (acc : List (Nat × Json))
      (ctx' : InterpolationContext) (acc' : List (Nat × Json)),
      collectWave triples ctx acc = .ok (ctx', acc') →
      acc' = acc ++ triples.filterMap okPair ∧
      (∀ t ∈ triples, ∃ v, t.2.2 = .ok v) ∧
      (∀ X : String, ctx.subrequestResults.lookup X = none →
        (∀ t ∈ triples, t.2.1 ≠ some X) →
        ctx'.subrequestResults.lookup X = none) := by
  intro triples
  induction triples with
  | nil =>
    intro ctx acc ctx' acc' h
    obtain ⟨rfl, rfl⟩ : ctx = ctx' ∧ acc = acc' := by
      rw [collectWave] at h
      injection h with hh
      exact ⟨congrArg Prod.fst hh, congrArg Prod.snd hh⟩
    refine ⟨by simp [okPair], ?_, ?_⟩
    · intro t ht; cases ht
    · intro X hX _; exact hX
  | cons t rest ih =>
    obtain ⟨idx, name, res⟩ := t
    intro ctx acc ctx' acc' h
    cases res with
    | error e =>
      simp only [collectWave] at h
      exact Except.noConfusion h
    | ok v =>
      simp only [collectWave] at h
      obtain ⟨h1, h2, h3⟩ := ih _ _ _ _ h
      refine ⟨?_, ?_, ?_⟩
      · rw [h1]
        simp [okPair, List.append_assoc]
      · intro t ht
        rcases List.mem_cons.mp ht with rfl | ht
        · exact ⟨v, rfl⟩
        · exact h2 t ht
      · intro X hX hnames
        refine h3 X ?_ (fun t ht => hnames t (List.mem_cons_of_mem _ ht))
        cases hname : name with
        | none => simpa [hname] using hX
        | some n =>
          have hne : n ≠ X := by
            intro rfl'
            exact hnames (idx, name, Except.ok v) (List.mem_cons_self _ _)
              (by rw [hname, rfl'])
          have hbeq : (X == n) = false := by
            simp only [beq_eq_false_iff_ne, ne_eq]
            exact fun hh => hne hh.symm
          simp only [hname, InterpolationContext.addSubrequestResult, List.lookup, hbeq]
          exact hX

theorem filterMap_okPair_map_fst :
    ∀ (triples : List (Nat × Option String × Except AppError Json)),
      (∀ t ∈ triples, ∃ v, t.2.2 = .ok v) →
      (triples.filterMap okPair).map Prod.fst = triples.map Prod.fst := by
  intro triples
  induction triples with
  | nil => intro _; rfl
  | cons t rest ih =>
    intro h
    obtain ⟨idx, name, res⟩ := t
    obtain ⟨v, hv⟩ := h _ (List.mem_cons_self _ _)
    simp only [] at hv
    subst hv
    simp only [List.filterMap_cons, okPair, List.map_cons]
    rw [ih (fun t ht => h t (List.mem_cons_of_mem _ ht))]

theorem dispatchedIdxs_sublist (evs : List ExecEvent) :
    List.Sublist (dispatchedIdxs evs) (evs.map eventIdx) := by
  induction evs with
  | nil => exact List.Sublist.refl _
  | cons e rest ih =>
    cases e with
    | dispatched i c =>
      simpa [dispatchedIdxs, eventIdx, List.filterMap_cons] using List.Sublist.cons₂ i ih
    | skipped i =>
      simpa [dispatchedIdxs, eventIdx, List.filterMap_cons] using List.Sublist.cons i ih

theorem executeParallelWaves_ok (rmatch : String → String → Bool)
    (cm : ClientManager) (srs : List SubrequestConfig) :
    ∀ (wavesList : List (List Nat)) (ctx : InterpolationContext)
      (acc : List (Nat × Json)) (allRes : List (Nat × Json)) (evs : List ExecEvent),
      executeParallelWaves rmatch cm srs wavesList ctx acc = (.ok allRes, evs) →
      (∀ i ∈ wavesList.flatten, ∃ sr, srs.get? i = some sr) →
      allRes.map Prod.fst = acc.map Prod.fst ++ dispatchedIdxs evs ∧
      evs.map eventIdx = wavesList.flatten ∧
      (∀ i v, (i, v) ∈ allRes ↔ (i, v) ∈ acc ∨
        ∃ c sr, ExecEvent.dispatched i c ∈ evs ∧ srs.get? i = some sr ∧
          executeSingleSubrequest cm sr c = .ok v) ∧
      (∀ X : String, ctx.subrequestResults.lookup X = none →
        (∀ i c sr, ExecEvent.dispatched i c ∈ evs → srs.get? i = some sr →
          sr.name ≠ some X) →
        ∀ i c, ExecEvent.dispatched i c ∈ evs → c.subrequestResults.lookup X = none) ∧
      (∀ i ∈ wavesList.flatten, ExecEvent.skipped i ∉ evs →
        ∃ c, ExecEvent.dispatched i c ∈ evs) := by
  intro wavesList
  induction wavesList with
  | nil =>
    intro ctx acc allRes evs h _
    obtain ⟨rfl, rfl⟩ : acc = allRes ∧ ([] : List ExecEvent) = evs := by
      rw [executeParallelWaves] at h
      injection h with h1 h2
      exact ⟨by injection h1, h2⟩
    refine ⟨by simp [dispatchedIdxs], rfl, ?_, ?_, ?_⟩
    · intro i v
      simp
    · intro X _ _ i c hc; cases hc
    · intro i hi; cases hi
  | cons wave restWaves ih =>
    intro ctx acc allRes evs h hbnd
    have hbndw : ∀ i ∈ wave, ∃ sr, srs.get? i = some sr := fun i hi =>
      hbnd i (by rw [List.flatten_cons]; exact List.mem_append_left _ hi)
    have hbndr : ∀ i ∈ restWaves.flatten, ∃ sr, srs.get? i = some sr := fun i hi =>
      hbnd i (by rw [List.flatten_cons]; exact List.mem_append_right _ hi)
    obtain ⟨w1, w2, w3, w4, w5, w6⟩ := runWave_spec rmatch cm srs ctx wave hbndw
    rw [executeParallelWaves] at h
    rcases hrw : runWave rmatch cm srs ctx wave with ⟨triples, evs1⟩
    rw [hrw] at h w1 w2 w3 w4 w5 w6
    simp only [] at h
    rcases hcw : collectWave triples ctx acc with e | ctxacc
    · rw [hcw] at h
      simp only [] at h
      exact absurd (congrArg Prod.fst h) (by simp)
    · obtain ⟨ctx2, acc2⟩ := ctxacc
      rw [hcw] at h
      simp only [] at h
      rcases hrec : executeParallelWaves rmatch cm srs restWaves ctx2 acc2 with ⟨r, evs2⟩
      rw [hrec] at h
      simp only [] at h
      obtain ⟨hr, hevs⟩ : r = .ok allRes ∧ evs1 ++ evs2 = evs := by
        exact ⟨congrArg Prod.fst h, congrArg Prod.snd h⟩
      subst hr
      subst hevs
      obtain ⟨c1, c2, c3⟩ := collectWave_ok triples ctx acc ctx2 acc2 hcw
      obtain ⟨ih1, ih2, ih3, ih4, ih5⟩ := ih ctx2 acc2 allRes evs2 hrec hbndr
      have hacc2fst : acc2.map Prod.fst = acc.map Prod.fst ++ triples.map Prod.fst := by
        rw [c1, List.map_append, filterMap_okPair_map_fst triples c2]
      refine ⟨?_, ?_, ?_, ?_, ?_⟩
      · rw [ih1, hacc2fst, w2]
        simp [dispatchedIdxs, List.filterMap_append, List.append_assoc]
      · simp only [List.map_append, w1, ih2, List.flatten_cons]
      · intro i v
        rw [ih3 i v]
        constructor
        · rintro (hmem | ⟨c, sr, hc, hget, hok⟩)
          · rw [c1] at hmem
            rcases List.mem_append.mp hmem with hmem | hmem
            · exact Or.inl hmem
            · obtain ⟨t, ht, hok⟩ := List.mem_filterMap.mp hmem
              obtain ⟨idx, nm, res⟩ := t
              obtain ⟨v0, hv0⟩ := c2 _ ht
              simp only [] at hv0
              subst hv0
              obtain ⟨hi, hv⟩ : idx = i ∧ v0 = v := by
                simp only [okPair] at hok
                injection hok with hh
                exact ⟨congrArg Prod.fst hh, congrArg Prod.snd hh⟩
              subst hi; subst hv
              obtain ⟨sr, hget, hnm, hres, hdisp⟩ := w4 _ ht
              simp only [] at hnm hres
              refine Or.inr ⟨ctx, sr, List.mem_append_left _ hdisp, hget, hres.symm⟩
          · exact Or.inr ⟨c, sr, List.mem_append_right _ hc, hget, hok⟩
        · rintro (hmem | ⟨c, sr, hc, hget, hok⟩)
          · refine Or.inl ?_
            rw [c1]
            exact List.mem_append_left _ hmem
          · rcases List.mem_append.mp hc with hc1 | hc2
            · obtain ⟨rfl, sr', hget', htrip⟩ := w5 i c hc1
              rw [hget] at hget'
              obtain rfl : sr' = sr := by injection hget' with hh; exact hh.symm
              refine Or.inl ?_
              rw [c1]
              refine List.mem_append_right _ (List.mem_filterMap.mpr ⟨_, htrip, ?_⟩)
              rw [hok]
              rfl
            · exact Or.inr ⟨c, sr, hc2, hget, hok⟩
      · intro X hX hnames i c hdisp
        rcases List.mem_append.mp hdisp with hc1 | hc2
        · obtain ⟨rfl, _⟩ := w5 i c hc1
          exact hX
        · have hX2 : ctx2.subrequestResults.lookup X = none := by
            refine c3 X hX ?_
            intro t ht htx
            obtain ⟨sr, hget, hnm, _, hdispt⟩ := w4 _ ht
            exact hnames t.1 ctx sr (List.mem_append_left _ hdispt) hget
              (by rw [← hnm]; exact htx)
          refine ih4 X hX2 ?_ i c hc2
          intro j cj srj hdispj hgetj
          exact hnames j cj srj (List.mem_append_right _ hdispj) hgetj
      · intro i hi hns
        rw [List.flatten_cons] at hi
        rcases List.mem_append.mp hi with hi | hi
        · obtain ⟨c, hc⟩ := w6 i hi (fun hmem => hns (List.mem_append_left _ hmem))
          exact ⟨c, List.mem_append_left _ hc⟩
        · obtain ⟨c, hc⟩ := ih5 i hi (fun hmem => hns (List.mem_append_right _ hmem))
          exact ⟨c, List.mem_append_right _ hc⟩

theorem pairwise_lt_of_sorted_le_nodup :
    ∀ (l : List (Nat × Json)),
      List.Pairwise (fun a b : Nat × Json => a.1 ≤ b.1) l →
      (l.map Prod.fst).Nodup →
      List.Pairwise (fun a b : Nat × Json => a.1 < b.1) l := by
  intro l
  induction l with
  | nil => intro _ _; exact List.Pairwise.nil
  | cons x t ih =>
    intro hs hn
    obtain ⟨hx, hs'⟩ := List.pairwise_cons.mp hs
    obtain ⟨hx1, hn'⟩ := List.nodup_cons.mp hn
    refine List.pairwise_cons.mpr ⟨?_, ih hs' hn'⟩
    intro y hy
    exact Nat.lt_of_le_of_ne (hx y hy)
      (fun he => hx1 (he ▸ List.mem_map_of_mem Prod.fst hy))

theorem sortByIdx_perm (l : List (Nat × Json)) : (sortByIdx l).Perm l :=
  List.perm_insertionSort _ l

theorem sortByIdx_sorted (l : List (Nat × Json)) :
    List.Pairwise (fun a b : Nat × Json => a.1 ≤ b.1) (sortByIdx l) :=
  List.sorted_insertionSort _ l

/-- C4: in parallel mode a successful run returns exactly the results of
the dispatched (non-skipped) subrequests, keyed by strictly increasing
definition index — i.e. in the route's definition order, independent of
the wave structure — and the handler's envelope is
`{"count": N, "subrequests": [...]}` with `N` the array's length. -/
theorem c4_order_preservation (rmatch : String → String → Bool)
    (cm : ClientManager) (srs : List SubrequestConfig)
    (ctx : InterpolationContext) (results : List Json) (events : List ExecEvent)
    (h : executeParallel rmatch cm srs ctx = (.ok results, events)) :
    (∃ pairs : List (Nat × Json),
      results = pairs.map Prod.snd ∧
      List.Pairwise (fun a b : Nat × Json => a.1 < b.1) pairs ∧
      (∀ i v, (i, v) ∈ pairs ↔
        ∃ c sr, ExecEvent.dispatched i c ∈ events ∧ srs.get? i = some sr ∧
          executeSingleSubrequest cm sr c = .ok v) ∧
      results.length = (dispatchedIdxs events).length) ∧
    (∀ (parseJson : String → Option Json) (config : Config) (req : RequestData)
       (route : RouteConfig),
       config.routes.head? = some route → route.execution_mode = .parallel →
       route.subrequests = srs → route.response_transform = none →
       requestContext req = ctx →
       handleRoute rmatch parseJson cm config req =
         (.ok (.obj [("count", .num results.length), ("subrequests", .arr results)]),
          events)) := by
  have h0 := h
  unfold executeParallel at h
  rcases hbo : buildExecutionOrder srs with e | waves
  · rw [hbo] at h
    simp at h
  · rw [hbo] at h
    dsimp only at h
    rcases hw : executeParallelWaves rmatch cm srs waves ctx [] with ⟨r, evs⟩
    rw [hw] at h
    cases r with
    | error e => simp at h
    | ok allRes =>
      dsimp only at h
      obtain ⟨hres, hevs⟩ : ((sortByIdx allRes).map Prod.snd = results) ∧ evs = events := by
        have h1 := congrArg Prod.fst h
        have h2 := congrArg Prod.snd h
        simp only [] at h1 h2
        exact ⟨by injection h1, h2⟩
      subst hevs
      obtain ⟨hnodup, hbounds, hcover⟩ := buildExecutionOrder_ok srs waves hbo
      obtain ⟨p1, p2, p3, _, _⟩ :=
        executeParallelWaves_ok rmatch cm srs waves ctx [] allRes evs hw hbounds
      have hfst : allRes.map Prod.fst = dispatchedIdxs evs := by simpa using p1
      have hdisp_nodup : (allRes.map Prod.fst).Nodup := by
        rw [hfst]
        exact List.Sublist.nodup (by rw [← p2]; exact dispatchedIdxs_sublist evs) hnodup
      have hperm := sortByIdx_perm allRes
      have hpairs_nodup : ((sortByIdx allRes).map Prod.fst).Nodup :=
        ((hperm.map Prod.fst).nodup_iff).mpr hdisp_nodup
      refine ⟨⟨sortByIdx allRes, hres.symm,
        pairwise_lt_of_sorted_le_nodup _ (sortByIdx_sorted allRes) hpairs_nodup, ?_, ?_⟩, ?_⟩
      · intro i v
        rw [hperm.mem_iff, p3 i v]
        simp
      · rw [← hres, List.length_map, hperm.length_eq, ← List.length_map allRes Prod.fst, hfst]
      · intro pj config req route hhead hmode hsubs htr hctx
        unfold handleRoute
        rw [hhead]
        simp only [hmode, hsubs, hctx, h0, htr]

/-- C4 witness: for the concrete two-subrequest route the theorem yields a
strictly index-sorted pair list matching the dispatch events. -/
theorem c4_witness :
    ∃ pairs : List (Nat × Json),
      [envA, envB] = pairs.map Prod.snd ∧
      List.Pairwise (fun a b : Nat × Json => a.1 < b.1) pairs ∧
      (∀ i v, (i, v) ∈ pairs ↔
        ∃ c sr,
          ExecEvent.dispatched i c ∈
            [ExecEvent.dispatched 0 ctxE, ExecEvent.dispatched 1 ctxE] ∧
          ([srA, srB] : List SubrequestConfig).get? i = some sr ∧
          executeSingleSubrequest cm1 sr c = .ok v) ∧
      ([envA, envB] : List Json).length =
        (dispatchedIdxs [ExecEvent.dispatched 0 ctxE, ExecEvent.dispatched 1 ctxE]).length :=
  (c4_order_preservation rm0 cm1 [srA, srB] ctxE [envA, envB]
    [.dispatched 0 ctxE, .dispatched 1 ctxE] rfl).1

/-- C10: a skipped subrequest does not cascade to its dependents.  If the
only subrequest named `X` (at index `i`) was skipped, then any other index
`j` that was not itself skipped is still dispatched in its wave — wave
assignment never consults conditions — and every context snapshot a
dispatch received holds no result under `X`, so every
`subrequest.X[.SEG]*` reference resolves to the empty string. -/
theorem c10_skip_no_cascade (rmatch : String → String → Bool)
    (cm : ClientManager) (srs : List SubrequestConfig)
    (ctx : InterpolationContext) (results : List Json) (events : List ExecEvent)
    (i j : Nat) (X : String) (sri srj : SubrequestConfig)
    (hrun : executeParallel rmatch cm srs ctx = (.ok results, events))
    (hctx0 : ctx.subrequestResults.lookup X = none)
    (hi : srs.get? i = some sri) (hiname : sri.name = some X)
    (hunique : ∀ k srk, srs.get? k = some srk → srk.name = some X → k = i)
    (hskip : ExecEvent.skipped i ∈ events)
    (hj : srs.get? j = some srj) (hdep : X ∈ srj.depends_on)
    (hjns : ExecEvent.skipped j ∉ events) :
    (∃ c, ExecEvent.dispatched j c ∈ events) ∧
    (∀ c, ExecEvent.dispatched j c ∈ events →
      c.subrequestResults.lookup X = none ∧
      (∀ p name segs, splitDots p = name :: segs → name = X →
        extractSubrequestValue c p = "")) := by
  unfold executeParallel at hrun
  rcases hbo : buildExecutionOrder srs with e | waves
  · rw [hbo] at hrun
    simp at hrun
  · rw [hbo] at hrun
    dsimp only at hrun
    rcases hw : executeParallelWaves rmatch cm srs waves ctx [] with ⟨r, evs⟩
    rw [hw] at hrun
    cases r with
    | error e => simp at hrun
    | ok allRes =>
      dsimp only at hrun
      obtain ⟨hres, hevs⟩ : ((sortByIdx allRes).map Prod.snd = results) ∧ evs = events := by
        have h1 := congrArg Prod.fst hrun
        have h2 := congrArg Prod.snd hrun
        simp only [] at h1 h2
        exact ⟨by injection h1, h2⟩
      subst hevs
      obtain ⟨hnodup, hbounds, hcover⟩ := buildExecutionOrder_ok srs waves hbo
      obtain ⟨p1, p2, p3, p4, p5⟩ :=
        executeParallelWaves_ok rmatch cm srs waves ctx [] allRes evs hw hbounds
      have hmapnodup : (evs.map eventIdx).Nodup := by rw [p2]; exact hnodup
      have hinj := List.inj_on_of_nodup_map hmapnodup
      have hnd : ∀ c, ExecEvent.dispatched i c ∉ evs := by
        intro c hdisp
        have := hinj hskip hdisp rfl
        cases this
      have hfree : ∀ (k : Nat) (c : InterpolationContext) (sr : SubrequestConfig),
          ExecEvent.dispatched k c ∈ evs → srs.get? k = some sr → sr.name ≠ some X := by
        intro k c sr hdk hgk hnk
        obtain rfl : k = i := hunique k sr hgk hnk
        exact hnd c hdk
      refine ⟨p5 j (hcover j srj hj) hjns, ?_⟩
      intro c hdisp
      have hcfree : c.subrequestResults.lookup X = none := p4 X hctx0 hfree j c hdisp
      refine ⟨hcfree, ?_⟩
      intro p name segs hsplit hname
      subst hname
      simp only [extractSubrequestValue, hsplit, hcfree]

/-- C10 witness: `X` (condition false for the empty request) is skipped,
its dependent `D` is still dispatched in the same wave with an `X`-free
snapshot, and `X.body.id` resolves to the empty string there. -/
theorem c10_witness :
    (∃ c, ExecEvent.dispatched 1 c ∈
      ([.skipped 0, .dispatched 1 ctxE] : List ExecEvent)) ∧
    (∀ c, ExecEvent.dispatched 1 c ∈
      ([.skipped 0, .dispatched 1 ctxE] : List ExecEvent) →
      c.subrequestResults.lookup "X" = none ∧
      (∀ p name segs, splitDots p = name :: segs → name = "X" →
        extractSubrequestValue c p = "")) := by
  refine c10_skip_no_cascade rm0 cm1 [srXc, srD] ctxE [envD]
    [.skipped 0, .dispatched 1 ctxE] 0 1 "X" srXc srD rfl rfl rfl rfl ?_ ?_ rfl ?_ ?_
  · intro k srk hgk hnk
    match k with
    | 0 => rfl
    | 1 =>
      obtain rfl : srD = srk := by injection hgk
      exact absurd (by injection hnk) (by decide)
    | k + 2 => exact absurd hgk (by simp [List.get?])
  · exact List.mem_cons_self _ _
  · simp [srD]
  · intro hmem
    rcases List.mem_cons.mp hmem with heq | hmem2
    · injection heq with hh
      exact absurd hh (by decide)
    · rcases List.mem_cons.mp hmem2 with heq2 | hmem3
      · cases heq2
      · cases hmem3

theorem buildInv_step_named (srs : List SubrequestConfig)
    (sched : List Nat) (exec : List String) (idx : Nat) (sr : SubrequestConfig)
    (n : String) (hinv : BuildInv srs (fun _ => False) sched exec)
    (hget : srs.get? idx = some sr) (hname : sr.name = some n)
    (hfresh : idx ∉ sched) :
    BuildInv srs (fun _ => False) (sched ++ [idx]) (n :: exec) := by
  refine ⟨?_, ?_, ?_, ?_, ?_⟩
  · intro i hi
    rcases List.mem_append.mp hi with hi | hi
    · exact hinv.bounds i hi
    · obtain rfl : i = idx := List.mem_singleton.mp hi
      exact ⟨sr, hget⟩
  · rw [List.nodup_append]
    exact ⟨hinv.nodup, List.nodup_singleton idx,
      fun a ha hb => hfresh ((List.mem_singleton.mp hb) ▸ ha)⟩
  · intro i sri ni hgeti hnamei hmemi
    rcases List.mem_append.mp hmemi with hmemi | hmemi
    · exact List.mem_cons_of_mem _ (hinv.namesRecorded i sri ni hgeti hnamei hmemi)
    · obtain rfl : i = idx := List.mem_singleton.mp hmemi
      rw [hget] at hgeti
      obtain rfl : sri = sr := by injection hgeti with hh; exact hh.symm
      rw [hname] at hnamei
      obtain rfl : ni = n := by injection hnamei with hh; exact hh.symm
      exact List.mem_cons_self _ _
  · intro m hm
    rcases List.mem_cons.mp hm with rfl | hm
    · exact ⟨idx, sr, hget, hname, List.mem_append_right _ (List.mem_singleton_self _)⟩
    · obtain ⟨i, sri, hgeti, hnamei, hschedi⟩ := hinv.execFromSched m hm
      exact ⟨i, sri, hgeti, hnamei, List.mem_append_left _ hschedi⟩
  · intro i _ hF
    exact hF

theorem buildInv_step_unnamed (srs : List SubrequestConfig)
    (sched : List Nat) (exec : List String) (idx : Nat) (sr : SubrequestConfig)
    (hinv : BuildInv srs (fun _ => False) sched exec)
    (hget : srs.get? idx = some sr) (hname : sr.name = none)
    (hfresh : idx ∉ sched) :
    BuildInv srs (fun _ => False) (sched ++ [idx]) exec := by
  refine ⟨?_, ?_, ?_, ?_, ?_⟩
  · intro i hi
    rcases List.mem_append.mp hi with hi | hi
    · exact hinv.bounds i hi
    · obtain rfl : i = idx := List.mem_singleton.mp hi
      exact ⟨sr, hget⟩
  · rw [List.nodup_append]
    exact ⟨hinv.nodup, List.nodup_singleton idx,
      fun a ha hb => hfresh ((List.mem_singleton.mp hb) ▸ ha)⟩
  · intro i sri ni hgeti hnamei hmemi
    rcases List.mem_append.mp hmemi with hmemi | hmemi
    · exact hinv.namesRecorded i sri ni hgeti hnamei hmemi
    · obtain rfl : i = idx := List.mem_singleton.mp hmemi
      rw [hget] at hgeti
      obtain rfl : sri = sr := by injection hgeti with hh; exact hh.symm
      rw [hname] at hnamei
      cases hnamei
  · intro m hm
    obtain ⟨i, sri, hgeti, hnamei, hschedi⟩ := hinv.execFromSched m hm
    exact ⟨i, sri, hgeti, hnamei, List.mem_append_left _ hschedi⟩
  · intro i _ hF
    exact hF

theorem enum_pairwise {α : Type _} (l : List α) :
    List.Pairwise (fun p q => p.1 < q.1) l.enum := by
  have h := List.pairwise_lt_range l.length
  rw [← List.enum_map_fst l] at h
  exact List.pairwise_map.mp h

theorem interpolate_splice_str (ctx : InterpolationContext) (a e b : String)
    (ha : containsDollarBrace a.data = false) (he : e.data ≠ []) (hbr : '\x7d' ∉ e.data) :
    ctx.interpolate (a ++ "$\x7b" ++ e ++ "\x7d" ++ b) =
      a ++ evaluateExpression ctx e ++ ctx.interpolate b := by
  obtain ⟨ad⟩ := a
  obtain ⟨ed⟩ := e
  obtain ⟨bd⟩ := b
  have hd : (String.mk ad ++ "$\x7b" ++ String.mk ed ++ "\x7d" ++ String.mk bd).data
      = ad ++ '$' :: '\x7b' :: (ed ++ '\x7d' :: bd) := by
    show (((ad ++ "$\x7b".data) ++ ed) ++ "\x7d".data) ++ bd = _
    simp [List.append_assoc]
  show String.mk (interpolateCharsF (evaluateExpression ctx) _ _) = _
  rw [hd]
  rw [interpolateCharsF_splice (evaluateExpression ctx) _ ad ed bd (Nat.le_refl _) ha he hbr]
  show String.mk _ = String.mk ((ad ++ (evaluateExpression ctx (String.mk ed)).data)
    ++ interpolateCharsF (evaluateExpression ctx) bd.length bd)
  rw [List.append_assoc]

theorem http_env_shape (cm : ClientManager) (cid : String)
    (hc : HttpSubrequestConfig) (ctx : InterpolationContext) (v : Json)
    (h : executeHttpSubrequest cm cid hc ctx = .ok v) :
    ∃ s st hdrs, v = .obj [("body", .str s), ("client_id", .str cid),
      ("headers", .obj hdrs), ("status", .num st), ("type", .str "http")] := by
  unfold executeHttpSubrequest at h
  cases hcl : cm.getHttpClient cid with
  | none => rw [hcl] at h; cases h
  | some client =>
    rw [hcl] at h
    dsimp only at h
    cases hresp : client hc.method (ctx.interpolate hc.uri)
        (hc.headers.map (fun p => (p.1, ctx.interpolate p.2)))
        (hc.body.map (fun b => ctx.interpolate b))
        (hc.query_params.map (fun p => (p.1, ctx.interpolate p.2))) with
    | error e => rw [hresp] at h; cases h
    | ok resp =>
      rw [hresp] at h
      injection h with hh
      exact ⟨resp.body, (resp.status : Int),
        resp.headers.map (fun p => (p.1, Json.str p.2)), hh.symm⟩

theorem interp_missing_name (ctx : InterpolationContext)
    (h : ctx.subrequestResults.lookup "A" = none) :
    ctx.interpolate "/u/$\x7bsubrequest.A.body.id\x7d" = "/u/" := by
  have h1 : evaluateExpression ctx "subrequest.A.body.id"
      = extractSubrequestValue ctx "A.body.id" := by
    unfold evaluateExpression
    rfl
  have hsplit : splitDots "A.body.id" = ["A", "body", "id"] := rfl
  have hev : evaluateExpression ctx "subrequest.A.body.id" = "" := by
    rw [h1]
    simp only [extractSubrequestValue, hsplit, h]
  have heq : ("/u/$\x7bsubrequest.A.body.id\x7d" : String)
      = "/u/" ++ "$\x7b" ++ "subrequest.A.body.id" ++ "\x7d" ++ "" := rfl
  rw [heq,
    interpolate_splice_str ctx "/u/" "subrequest.A.body.id" "" rfl (by decide) (by decide),
    hev]
  rfl

theorem interp_stored_http (ctx2 : InterpolationContext) (v : Json) (s : String)
    (st : Int) (hdrs : List (String × Json)) (cid : String)
    (hv : v = .obj [("body", .str s), ("client_id", .str cid),
      ("headers", .obj hdrs), ("status", .num st), ("type", .str "http")]) :
    (ctx2.addSubrequestResult "A" v).interpolate
      "/u/$\x7bsubrequest.A.body.id\x7d" = "/u/" := by
  subst hv
  have hlook : (ctx2.addSubrequestResult "A" (.obj [("body", .str s),
        ("client_id", .str cid), ("headers", .obj hdrs), ("status", .num st),
        ("type", .str "http")])).subrequestResults.lookup "A"
      = some (.obj [("body", .str s), ("client_id", .str cid),
        ("headers", .obj hdrs), ("status", .num st), ("type", .str "http")]) := by
    simp [InterpolationContext.addSubrequestResult, List.lookup]
  have h1 : evaluateExpression (ctx2.addSubrequestResult "A" (.obj [("body", .str s),
        ("client_id", .str cid), ("headers", .obj hdrs), ("status", .num st),
        ("type", .str "http")])) "subrequest.A.body.id"
      = extractSubrequestValue (ctx2.addSubrequestResult "A" (.obj [("body", .str s),
        ("client_id", .str cid), ("headers", .obj hdrs), ("status", .num st),
        ("type", .str "http")])) "A.body.id" := by
    unfold evaluateExpression
    rfl
  have hsplit : splitDots "A.body.id" = ["A", "body", "id"] := rfl
  have hev : evaluateExpression (ctx2.addSubrequestResult "A" (.obj [("body", .str s),
        ("client_id", .str cid), ("headers", .obj hdrs), ("status", .num st),
        ("type", .str "http")])) "subrequest.A.body.id" = "" := by
    rw [h1]
    simp only [extractSubrequestValue, hsplit, hlook]
    rfl
  have heq : ("/u/$\x7bsubrequest.A.body.id\x7d" : String)
      = "/u/" ++ "$\x7b" ++ "subrequest.A.body.id" ++ "\x7d" ++ "" := rfl
  rw [heq,
    interpolate_splice_str _ "/u/" "subrequest.A.body.id" "" rfl (by decide) (by decide),
    hev]
  rfl

theorem c1_pass_ab (srs : List SubrequestConfig) (iA iB : Nat)
    (A B : SubrequestConfig) (nA : String)
    (hU : ∀ i j sri srj n, srs.get? i = some sri → srs.get? j = some srj →
      sri.name = some n → srj.name = some n → i = j)
    (hgetA : srs.get? iA = some A) (hnameA : A.name = some nA)
    (hgetB : srs.get? iB = some B) (hdepB : B.depends_on = [nA])
    (hlt : iA < iB) (waves : List (List Nat)) :
    ∀ (pairs : List (Nat × SubrequestConfig)) (wave : List Nat) (exec : List String),
      (∀ p ∈ pairs, srs.get? p.1 = some p.2) →
      List.Pairwise (fun p q => p.1 < q.1) pairs →
      (∀ p ∈ pairs, p.1 ∉ wave) →
      BuildInv srs (fun _ => False) (waves.flatten ++ wave) exec →
      (iB ∈ waves.flatten ++ wave → iA ∈ waves.flatten ++ wave) →
      ((iB, B) ∈ pairs ∨ iB ∈ waves.flatten ++ wave ∨
        (iA ∉ waves.flatten ++ wave ∧ exec.contains nA = false ∧ (iA, A) ∉ pairs)) →
      (iB ∈ waves.flatten ++ (buildPass waves pairs wave exec).1 →
        iA ∈ waves.flatten ++ (buildPass waves pairs wave exec).1) ∧
      (iB ∈ waves.flatten ++ (buildPass waves pairs wave exec).1 ∨
        iA ∉ waves.flatten ++ (buildPass waves pairs wave exec).1) := by
  intro pairs
  induction pairs with
  | nil =>
    intro wave exec _ _ _ _ himp hdisj
    rw [buildPass]
    refine ⟨himp, ?_⟩
    rcases hdisj with hdisj | hdisj | hdisj
    · cases hdisj
    · exact Or.inl hdisj
    · exact Or.inr hdisj.1
  | cons p rest ih =>
    obtain ⟨idx, sr⟩ := p
    intro wave exec hP1 hPW hP3 hinv himp hdisj
    have hget : srs.get? idx = some sr := hP1 (idx, sr) (List.mem_cons_self _ _)
    have hP1' : ∀ q ∈ rest, srs.get? q.1 = some q.2 :=
      fun q hq => hP1 q (List.mem_cons_of_mem _ hq)
    obtain ⟨hltRest, hPW'⟩ := List.pairwise_cons.mp hPW
    have hP3' : ∀ q ∈ rest, q.1 ∉ wave := fun q hq => hP3 q (List.mem_cons_of_mem _ hq)
    have hheadA : idx = iA → sr = A := by
      intro hidx
      rw [hidx, hgetA] at hget
      injection hget with hh
      exact hh.symm
    have hheadB : idx = iB → sr = B := by
      intro hidx
      rw [hidx, hgetB] at hget
      injection hget with hh
      exact hh.symm
    have hget : srs.get? idx = some sr := hP1 (idx, sr) (List.mem_cons_self _ _)
    have hAin : exec.contains nA = true → iA ∈ waves.flatten ++ wave := by
      intro hcc
      obtain ⟨j, sr', hj, hnj, hjs⟩ := hinv.execFromSched nA (List.elem_iff.mp hcc)
      have hje : j = iA := hU j iA sr' A nA hj hgetA hnj hnameA
      exact hje ▸ hjs
    have hAex : iA ∈ waves.flatten ++ wave → nA ∈ exec :=
      fun hmem => hinv.namesRecorded iA A nA hgetA hnameA hmem
    rw [buildPass]
    cases hname : sr.name with
    | some n =>
      by_cases hc : exec.contains n = true
      · simp only [hc, if_true]
        refine ih wave exec hP1' hPW' hP3' hinv himp ?_
        rcases hdisj with hdisj | hdisj | hdisj
        · rcases List.mem_cons.mp hdisj with heq | hdisj
          · obtain ⟨h1, h2⟩ : iB = idx ∧ B = sr := by
              injection heq with h1 h2
              exact ⟨h1, h2⟩
            have hBn : B.name = some n := by rw [h2]; exact hname
            obtain ⟨j, sr', hj, hnj, hjs⟩ := hinv.execFromSched n (List.elem_iff.mp hc)
            have hje : j = iB := hU j iB sr' B n hj hgetB hnj hBn
            exact Or.inr (Or.inl (hje ▸ hjs))
          · exact Or.inl hdisj
        · exact Or.inr (Or.inl hdisj)
        · exact Or.inr (Or.inr ⟨hdisj.1, hdisj.2.1,
            fun hm => hdisj.2.2 (List.mem_cons_of_mem _ hm)⟩)
      · simp only [hc, if_false, Bool.false_eq_true]
        by_cases hdeps : sr.depends_on.all (fun dep => exec.contains dep) = true
        · simp only [hdeps, if_true]
          have hfresh : idx ∉ waves.flatten ++ wave := fun hmem =>
            hc (List.elem_iff.mpr (hinv.namesRecorded idx sr n hget hname hmem))
          have hassoc : waves.flatten ++ (wave ++ [idx])
              = (waves.flatten ++ wave) ++ [idx] := (List.append_assoc _ _ _).symm
          have hinv' : BuildInv srs (fun _ => False)
              (waves.flatten ++ (wave ++ [idx])) (n :: exec) := by
            rw [hassoc]
            exact buildInv_step_named srs _ exec idx sr n hinv hget hname hfresh
          have hP3'' : ∀ q ∈ rest, q.1 ∉ wave ++ [idx] := by
            intro q hq hm
            rcases List.mem_append.mp hm with hm | hm
            · exact hP3' q hq hm
            · exact absurd ((List.mem_singleton.mp hm) ▸ hltRest q hq) (lt_irrefl _)
          have himp'' : iB ∈ waves.flatten ++ (wave ++ [idx]) →
              iA ∈ waves.flatten ++ (wave ++ [idx]) := by
            intro hm
            rw [hassoc] at hm ⊢
            rcases List.mem_append.mp hm with hm | hm
            · exact List.mem_append_left _ (himp hm)
            · have hsrB : sr = B := hheadB ((List.mem_singleton.mp hm).symm)
              have hcnA : exec.contains nA = true := by
                rw [hsrB, hdepB] at hdeps
                exact List.all_eq_true.mp hdeps nA (List.mem_singleton_self _)
              exact List.mem_append_left _ (hAin hcnA)
          refine ih (wave ++ [idx]) (n :: exec) hP1' hPW' hP3'' hinv' himp'' ?_
          rcases hdisj with hdisj | hdisj | hdisj
          · rcases List.mem_cons.mp hdisj with heq | hdisj
            · obtain ⟨h1, h2⟩ : iB = idx ∧ B = sr := by
                injection heq with h1 h2
                exact ⟨h1, h2⟩
              refine Or.inr (Or.inl (List.mem_append_right _ (List.mem_append_right _ ?_)))
              rw [h1]
              exact List.mem_singleton_self idx
            · exact Or.inl hdisj
          · refine Or.inr (Or.inl ?_)
            rcases List.mem_append.mp hdisj with hx | hx
            · exact List.mem_append_left _ hx
            · exact List.mem_append_right _ (List.mem_append_left _ hx)
          · obtain ⟨hAn, hAe, hAnp⟩ := hdisj
            have hidxA : idx ≠ iA := by
              intro hidx
              apply hAnp
              have hsrA : sr = A := hheadA hidx
              rw [hidx, hsrA]
              exact List.mem_cons_self _ _
            have hnne : n ≠ nA := fun hn =>
              hidxA (hU idx iA sr A nA hget hgetA (hn ▸ hname) hnameA)
            refine Or.inr (Or.inr ⟨?_, ?_, fun hm => hAnp (List.mem_cons_of_mem _ hm)⟩)
            · intro hm
              rw [hassoc] at hm
              rcases List.mem_append.mp hm with hm | hm
              · exact hAn hm
              · exact hidxA (List.mem_singleton.mp hm).symm
            · refine Bool.eq_false_iff.mpr (fun hcc => ?_)
              rcases List.mem_cons.mp (List.elem_iff.mp hcc) with h | h
              · exact hnne h.symm
              · exact Bool.false_ne_true (hAe ▸ List.elem_iff.mpr h)
        · simp only [hdeps, if_false, Bool.false_eq_true]
          refine ih wave exec hP1' hPW' hP3' hinv himp ?_
          rcases hdisj with hdisj | hdisj | hdisj
          · rcases List.mem_cons.mp hdisj with heq | hdisj
            · obtain ⟨h1, h2⟩ : iB = idx ∧ B = sr := by
                injection heq with h1 h2
                exact ⟨h1, h2⟩
              have hcnA : exec.contains nA = false := by
                refine Bool.eq_false_iff.mpr (fun hcc => hdeps ?_)
                rw [← h2, hdepB]
                refine List.all_eq_true.mpr (fun x hx => ?_)
                obtain rfl := List.mem_singleton.mp hx
                exact hcc
              refine Or.inr (Or.inr ⟨?_, hcnA, ?_⟩)
              · intro hm
                have hcm : exec.contains nA = true := List.elem_iff.mpr (hAex hm)
                rw [hcnA] at hcm
                cases hcm
              · intro hm
                have hlt2 := hltRest (iA, A) hm
                rw [← h1] at hlt2
                exact absurd hlt (by omega)
            · exact Or.inl hdisj
          · exact Or.inr (Or.inl hdisj)
          · exact Or.inr (Or.inr ⟨hdisj.1, hdisj.2.1,
              fun hm => hdisj.2.2 (List.mem_cons_of_mem _ hm)⟩)
    | none =>
      by_cases hw : (waves.any fun w => w.contains idx) = true
      · simp only [hw, if_true]
        refine ih wave exec hP1' hPW' hP3' hinv himp ?_
        rcases hdisj with hdisj | hdisj | hdisj
        · rcases List.mem_cons.mp hdisj with heq | hdisj
          · obtain ⟨h1, h2⟩ : iB = idx ∧ B = sr := by
              injection heq with h1 h2
              exact ⟨h1, h2⟩
            obtain ⟨w, hwmem, hiw⟩ := List.any_eq_true.mp hw
            refine Or.inr (Or.inl (List.mem_append_left _ ?_))
            rw [h1]
            exact List.mem_join.mpr ⟨w, hwmem, List.elem_iff.mp hiw⟩
          · exact Or.inl hdisj
        · exact Or.inr (Or.inl hdisj)
        · exact Or.inr (Or.inr ⟨hdisj.1, hdisj.2.1,
            fun hm => hdisj.2.2 (List.mem_cons_of_mem _ hm)⟩)
      · simp only [hw, if_false, Bool.false_eq_true]
        by_cases hdeps : sr.depends_on.all (fun dep => exec.contains dep) = true
        · simp only [hdeps, if_true]
          have hfresh : idx ∉ waves.flatten ++ wave := by
            intro hmem
            rcases List.mem_append.mp hmem with hmem | hmem
            · obtain ⟨w, hwmem, hiw⟩ := List.mem_join.mp hmem
              exact hw (List.any_eq_true.mpr ⟨w, hwmem, List.elem_iff.mpr hiw⟩)
            · exact hP3 (idx, sr) (List.mem_cons_self _ _) hmem
          have hassoc : waves.flatten ++ (wave ++ [idx])
              = (waves.flatten ++ wave) ++ [idx] := (List.append_assoc _ _ _).symm
          have hinv' : BuildInv srs (fun _ => False)
              (waves.flatten ++ (wave ++ [idx])) exec := by
            rw [hassoc]
            exact buildInv_step_unnamed srs _ exec idx sr hinv hget hname hfresh
          have hP3'' : ∀ q ∈ rest, q.1 ∉ wave ++ [idx] := by
            intro q hq hm
            rcases List.mem_append.mp hm with hm | hm
            · exact hP3' q hq hm
            · exact absurd ((List.mem_singleton.mp hm) ▸ hltRest q hq) (lt_irrefl _)
          have himp'' : iB ∈ waves.flatten ++ (wave ++ [idx]) →
              iA ∈ waves.flatten ++ (wave ++ [idx]) := by
            intro hm
            rw [hassoc] at hm ⊢
            rcases List.mem_append.mp hm with hm | hm
            · exact List.mem_append_left _ (himp hm)
            · have hsrB : sr = B := hheadB ((List.mem_singleton.mp hm).symm)
              have hcnA : exec.contains nA = true := by
                rw [hsrB, hdepB] at hdeps
                exact List.all_eq_true.mp hdeps nA (List.mem_singleton_self _)
              exact List.mem_append_left _ (hAin hcnA)
          refine ih (wave ++ [idx]) exec hP1' hPW' hP3'' hinv' himp'' ?_
          rcases hdisj with hdisj | hdisj | hdisj
          · rcases List.mem_cons.mp hdisj with heq | hdisj
            · obtain ⟨h1, h2⟩ : iB = idx ∧ B = sr := by
                injection heq with h1 h2
                exact ⟨h1, h2⟩
              refine Or.inr (Or.inl (List.mem_append_right _ (List.mem_append_right _ ?_)))
              rw [h1]
              exact List.mem_singleton_self idx
            · exact Or.inl hdisj
          · refine Or.inr (Or.inl ?_)
            rcases List.mem_append.mp hdisj with hx | hx
            · exact List.mem_append_left _ hx
            · exact List.mem_append_right _ (List.mem_append_left _ hx)
          · obtain ⟨hAn, hAe, hAnp⟩ := hdisj
            have hidxA : idx ≠ iA := by
              intro hidx
              apply hAnp
              have hsrA : sr = A := hheadA hidx
              rw [hidx, hsrA]
              exact List.mem_cons_self _ _
            refine Or.inr (Or.inr ⟨?_, hAe, fun hm => hAnp (List.mem_cons_of_mem _ hm)⟩)
            intro hm
            rw [hassoc] at hm
            rcases List.mem_append.mp hm with hm | hm
            · exact hAn hm
            · exact hidxA (List.mem_singleton.mp hm).symm
        · simp only [hdeps, if_false, Bool.false_eq_true]
          refine ih wave exec hP1' hPW' hP3' hinv himp ?_
          rcases hdisj with hdisj | hdisj | hdisj
          · rcases List.mem_cons.mp hdisj with heq | hdisj
            · obtain ⟨h1, h2⟩ : iB = idx ∧ B = sr := by
                injection heq with h1 h2
                exact ⟨h1, h2⟩
              have hcnA : exec.contains nA = false := by
                refine Bool.eq_false_iff.mpr (fun hcc => hdeps ?_)
                rw [← h2, hdepB]
                refine List.all_eq_true.mpr (fun x hx => ?_)
                obtain rfl := List.mem_singleton.mp hx
                exact hcc
              refine Or.inr (Or.inr ⟨?_, hcnA, ?_⟩)
              · intro hm
                have hcm : exec.contains nA = true := List.elem_iff.mpr (hAex hm)
                rw [hcnA] at hcm
                cases hcm
              · intro hm
                have hlt2 := hltRest (iA, A) hm
                rw [← h1] at hlt2
                exact absurd hlt (by omega)
            · exact Or.inl hdisj
          · exact Or.inr (Or.inl hdisj)
          · exact Or.inr (Or.inr ⟨hdisj.1, hdisj.2.1,
              fun hm => hdisj.2.2 (List.mem_cons_of_mem _ hm)⟩)

theorem c1_pass_ba (srs : List SubrequestConfig) (iA iB : Nat)
    (A B : SubrequestConfig) (nA : String)
    (hU : ∀ i j sri srj n, srs.get? i = some sri → srs.get? j = some srj →
      sri.name = some n → srj.name = some n → i = j)
    (hgetA : srs.get? iA = some A) (hnameA : A.name = some nA)
    (hgetB : srs.get? iB = some B) (hdepB : B.depends_on = [nA])
    (hlt : iB < iA) (waves : List (List Nat)) :
    ∀ (pairs : List (Nat × SubrequestConfig)) (wave : List Nat) (exec : List String),
      (∀ p ∈ pairs, srs.get? p.1 = some p.2) →
      List.Pairwise (fun p q => p.1 < q.1) pairs →
      (∀ p ∈ pairs, p.1 ∉ wave) →
      BuildInv srs (fun _ => False) (waves.flatten ++ wave) exec →
      (iB ∈ wave → iA ∈ waves.flatten) →
      ((iB, B) ∈ pairs → (iA, A) ∈ pairs) →
      ((iA, A) ∈ pairs → iA ∉ wave) →
      (iB ∈ (buildPass waves pairs wave exec).1 → iA ∈ waves.flatten) := by
  intro pairs
  induction pairs with
  | nil =>
    intro wave exec _ _ _ _ ha2 _ _
    rw [buildPass]
    exact ha2
  | cons p rest ih =>
    obtain ⟨idx, sr⟩ := p
    intro wave exec hP1 hPW hP3 hinv ha2 hc2 hb2
    have hget : srs.get? idx = some sr := hP1 (idx, sr) (List.mem_cons_self _ _)
    have hP1' : ∀ q ∈ rest, srs.get? q.1 = some q.2 :=
      fun q hq => hP1 q (List.mem_cons_of_mem _ hq)
    obtain ⟨hltRest, hPW'⟩ := List.pairwise_cons.mp hPW
    have hP3' : ∀ q ∈ rest, q.1 ∉ wave := fun q hq => hP3 q (List.mem_cons_of_mem _ hq)
    have hheadA : idx = iA → sr = A := by
      intro hidx
      rw [hidx, hgetA] at hget
      injection hget with hh
      exact hh.symm
    have hheadB : idx = iB → sr = B := by
      intro hidx
      rw [hidx, hgetB] at hget
      injection hget with hh
      exact hh.symm
    have hget : srs.get? idx = some sr := hP1 (idx, sr) (List.mem_cons_self _ _)
    have hAin : exec.contains nA = true → iA ∈ waves.flatten ++ wave := by
      intro hcc
      obtain ⟨j, sr', hj, hnj, hjs⟩ := hinv.execFromSched nA (List.elem_iff.mp hcc)
      have hje : j = iA := hU j iA sr' A nA hj hgetA hnj hnameA
      exact hje ▸ hjs
    have hc2' : (iB, B) ∈ rest → (iA, A) ∈ rest := by
      intro hm
      rcases List.mem_cons.mp (hc2 (List.mem_cons_of_mem _ hm)) with heq | hA
      · have hidx : idx = iA := by injection heq with h1 _; exact h1.symm
        have hlt2 := hltRest (iB, B) hm
        rw [hidx] at hlt2
        exact absurd hlt (by omega)
      · exact hA
    have hb2' : (iA, A) ∈ rest → iA ∉ wave :=
      fun hm => hb2 (List.mem_cons_of_mem _ hm)
    rw [buildPass]
    cases hname : sr.name with
    | some n =>
      by_cases hc : exec.contains n = true
      · simp only [hc, if_true]
        exact ih wave exec hP1' hPW' hP3' hinv ha2 hc2' hb2'
      · simp only [hc, if_false, Bool.false_eq_true]
        by_cases hdeps : sr.depends_on.all (fun dep => exec.contains dep) = true
        · simp only [hdeps, if_true]
          have hfresh : idx ∉ waves.flatten ++ wave := fun hmem =>
            hc (List.elem_iff.mpr (hinv.namesRecorded idx sr n hget hname hmem))
          have hassoc : waves.flatten ++ (wave ++ [idx])
              = (waves.flatten ++ wave) ++ [idx] := (List.append_assoc _ _ _).symm
          have hinv' : BuildInv srs (fun _ => False)
              (waves.flatten ++ (wave ++ [idx])) (n :: exec) := by
            rw [hassoc]
            exact buildInv_step_named srs _ exec idx sr n hinv hget hname hfresh
          have hP3'' : ∀ q ∈ rest, q.1 ∉ wave ++ [idx] := by
            intro q hq hm
            rcases List.mem_append.mp hm with hm | hm
            · exact hP3' q hq hm
            · exact absurd ((List.mem_singleton.mp hm) ▸ hltRest q hq) (lt_irrefl _)
          have ha2'' : iB ∈ wave ++ [idx] → iA ∈ waves.flatten := by
            intro hm
            rcases List.mem_append.mp hm with hm | hm
            · exact ha2 hm
            · have hidB : idx = iB := (List.mem_singleton.mp hm).symm
              have hsrB : sr = B := hheadB hidB
              have hcnA : exec.contains nA = true := by
                rw [hsrB, hdepB] at hdeps
                exact List.all_eq_true.mp hdeps nA (List.mem_singleton_self _)
              have hBhead : (iB, B) ∈ (idx, sr) :: rest := by
                rw [hidB, hsrB]
                exact List.mem_cons_self _ _
              have hAnw : iA ∉ wave := hb2 (hc2 hBhead)
              rcases List.mem_append.mp (hAin hcnA) with hx | hx
              · exact hx
              · exact absurd hx hAnw
          have hb2'' : (iA, A) ∈ rest → iA ∉ wave ++ [idx] := by
            intro hm hmem
            rcases List.mem_append.mp hmem with hx | hx
            · exact hb2 (List.mem_cons_of_mem _ hm) hx
            · have hlt2 := hltRest (iA, A) hm
              rw [(List.mem_singleton.mp hx).symm] at hlt2
              exact lt_irrefl _ hlt2
          exact ih (wave ++ [idx]) (n :: exec) hP1' hPW' hP3'' hinv' ha2'' hc2' hb2''
        · simp only [hdeps, if_false, Bool.false_eq_true]
          exact ih wave exec hP1' hPW' hP3' hinv ha2 hc2' hb2'
    | none =>
      by_cases hw : (waves.any fun w => w.contains idx) = true
      · simp only [hw, if_true]
        exact ih wave exec hP1' hPW' hP3' hinv ha2 hc2' hb2'
      · simp only [hw, if_false, Bool.false_eq_true]
        by_cases hdeps : sr.depends_on.all (fun dep => exec.contains dep) = true
        · simp only [hdeps, if_true]
          have hfresh : idx ∉ waves.flatten ++ wave := by
            intro hmem
            rcases List.mem_append.mp hmem with hmem | hmem
            · obtain ⟨w, hwmem, hiw⟩ := List.mem_join.mp hmem
              exact hw (List.any_eq_true.mpr ⟨w, hwmem, List.elem_iff.mpr hiw⟩)
            · exact hP3 (idx, sr) (List.mem_cons_self _ _) hmem
          have hassoc : waves.flatten ++ (wave ++ [idx])
              = (waves.flatten ++ wave) ++ [idx] := (List.append_assoc _ _ _).symm
          have hinv' : BuildInv srs (fun _ => False)
              (waves.flatten ++ (wave ++ [idx])) exec := by
            rw [hassoc]
            exact buildInv_step_unnamed srs _ exec idx sr hinv hget hname hfresh
          have hP3'' : ∀ q ∈ rest, q.1 ∉ wave ++ [idx] := by
            intro q hq hm
            rcases List.mem_append.mp hm with hm | hm
            · exact hP3' q hq hm
            · exact absurd ((List.mem_singleton.mp hm) ▸ hltRest q hq) (lt_irrefl _)
          have ha2'' : iB ∈ wave ++ [idx] → iA ∈ waves.flatten := by
            intro hm
            rcases List.mem_append.mp hm with hm | hm
            · exact ha2 hm
            · have hidB : idx = iB := (List.mem_singleton.mp hm).symm
              have hsrB : sr = B := hheadB hidB
              have hcnA : exec.contains nA = true := by
                rw [hsrB, hdepB] at hdeps
                exact List.all_eq_true.mp hdeps nA (List.mem_singleton_self _)
              have hBhead : (iB, B) ∈ (idx, sr) :: rest := by
                rw [hidB, hsrB]
                exact List.mem_cons_self _ _
              have hAnw : iA ∉ wave := hb2 (hc2 hBhead)
              rcases List.mem_append.mp (hAin hcnA) with hx | hx
              · exact hx
              · exact absurd hx hAnw
          have hb2'' : (iA, A) ∈ rest → iA ∉ wave ++ [idx] := by
            intro hm hmem
            rcases List.mem_append.mp hmem with hx | hx
            · exact hb2 (List.mem_cons_of_mem _ hm) hx
            · have hlt2 := hltRest (iA, A) hm
              rw [(List.mem_singleton.mp hx).symm] at hlt2
              exact lt_irrefl _ hlt2
          exact ih (wave ++ [idx]) exec hP1' hPW' hP3'' hinv' ha2'' hc2' hb2''
        · simp only [hdeps, if_false, Bool.false_eq_true]
          exact ih wave exec hP1' hPW' hP3' hinv ha2 hc2' hb2'

theorem c1_loop_ab (srs : List SubrequestConfig) (iA iB : Nat)
    (A B : SubrequestConfig) (nA : String)
    (hU : ∀ i j sri srj n, srs.get? i = some sri → srs.get? j = some srj →
      sri.name = some n → srj.name = some n → i = j)
    (hgetA : srs.get? iA = some A) (hnameA : A.name = some nA)
    (hgetB : srs.get? iB = some B) (hdepB : B.depends_on = [nA])
    (hlt : iA < iB) :
    ∀ (fuel : Nat) (waves : List (List Nat)) (exec : List String),
      BuildInv srs (fun _ => False) waves.flatten exec →
      (∀ w ∈ waves, (iA ∈ w ↔ iB ∈ w)) →
      ∃ exec2, BuildInv srs (fun _ => False) (buildLoop srs fuel waves exec).flatten exec2 ∧
        ∀ w ∈ buildLoop srs fuel waves exec, (iA ∈ w ↔ iB ∈ w) := by
  intro fuel
  induction fuel with
  | zero =>
    intro waves exec h hiff
    exact ⟨exec, h, hiff⟩
  | succ fuel ih =>
    intro waves exec h hiff
    have hS : SBlocked srs (fun _ => False) := fun i hi => hi.elim
    have hpass := buildPass_inv srs (fun _ => False) hS waves srs.enum [] exec
      (fun p hp => by
        obtain ⟨i, a⟩ := p
        exact List.mk_mem_enum_iff_get?.mp hp)
      (by rw [List.enum_map_fst]; exact List.nodup_range _)
      (fun p _ => List.not_mem_nil p.1)
      (by simpa using h)
    have hab := c1_pass_ab srs iA iB A B nA hU hgetA hnameA hgetB hdepB hlt waves
      srs.enum [] exec
      (fun p hp => by
        obtain ⟨i, a⟩ := p
        exact List.mk_mem_enum_iff_get?.mp hp)
      (enum_pairwise srs)
      (fun p _ => List.not_mem_nil p.1)
      (by simpa using h)
      (by
        intro hm
        rw [List.append_nil] at hm ⊢
        obtain ⟨w, hwmem, hwm⟩ := List.mem_join.mp hm
        exact List.mem_join.mpr ⟨w, hwmem, (hiff w hwmem).mpr hwm⟩)
      (Or.inl (List.mk_mem_enum_iff_get?.mpr hgetB))
    rw [buildLoop]
    rcases hsplit : buildPass waves srs.enum [] exec with ⟨wave, exec2⟩
    rw [hsplit] at hpass hab
    simp only [] at hpass hab
    simp only []
    by_cases hw : wave.isEmpty = true
    · simp only [hw, if_true]
      exact ⟨exec, h, hiff⟩
    · simp only [hw, if_false, Bool.false_eq_true]
      have hnd : (waves.flatten ++ wave).Nodup := hpass.nodup
      have hdisjnt := (List.nodup_append.mp hnd).2.2
      refine ih (waves ++ [wave]) exec2 ?_ ?_
      · rw [List.flatten_append]
        simpa using hpass
      · intro w2 hw2
        rcases List.mem_append.mp hw2 with hw2 | hw2
        · exact hiff w2 hw2
        · rw [List.mem_singleton.mp hw2]
          obtain ⟨himpOut, hdisjOut⟩ := hab
          constructor
          · intro hiA
            rcases hdisjOut with hB | hnA
            · rcases List.mem_append.mp hB with hB | hB
              · obtain ⟨w3, hw3, hiB3⟩ := List.mem_join.mp hB
                have hiAfl : iA ∈ waves.flatten :=
                  List.mem_join.mpr ⟨w3, hw3, (hiff w3 hw3).mpr hiB3⟩
                exact absurd hiA (hdisjnt hiAfl)
              · exact hB
            · exact absurd (List.mem_append_right _ hiA) hnA
          · intro hiB
            have hiAmem : iA ∈ waves.flatten ++ wave :=
              himpOut (List.mem_append_right _ hiB)
            rcases List.mem_append.mp hiAmem with hiAfl | hiAw
            · obtain ⟨w3, hw3, hiA3⟩ := List.mem_join.mp hiAfl
              have hiBfl : iB ∈ waves.flatten :=
                List.mem_join.mpr ⟨w3, hw3, (hiff w3 hw3).mp hiA3⟩
              exact absurd hiB (hdisjnt hiBfl)
            · exact hiAw

theorem c1_loop_ba (srs : List SubrequestConfig) (iA iB : Nat)
    (A B : SubrequestConfig) (nA : String)
    (hU : ∀ i j sri srj n, srs.get? i = some sri → srs.get? j = some srj →
      sri.name = some n → srj.name = some n → i = j)
    (hgetA : srs.get? iA = some A) (hnameA : A.name = some nA)
    (hgetB : srs.get? iB = some B) (hdepB : B.depends_on = [nA])
    (hlt : iB < iA) :
    ∀ (fuel : Nat) (waves : List (List Nat)) (exec : List String),
      BuildInv srs (fun _ => False) waves.flatten exec →
      (∀ k w2, waves.get? k = some w2 → iB ∈ w2 →
        ∃ k2 w3, k2 < k ∧ waves.get? k2 = some w3 ∧ iA ∈ w3) →
      ∃ exec2, BuildInv srs (fun _ => False) (buildLoop srs fuel waves exec).flatten exec2 ∧
        ∀ k w2, (buildLoop srs fuel waves exec).get? k = some w2 → iB ∈ w2 →
          ∃ k2 w3, k2 < k ∧ (buildLoop srs fuel waves exec).get? k2 = some w3 ∧ iA ∈ w3 := by
  intro fuel
  induction fuel with
  | zero =>
    intro waves exec h hlater
    exact ⟨exec, h, hlater⟩
  | succ fuel ih =>
    intro waves exec h hlater
    have hS : SBlocked srs (fun _ => False) := fun i hi => hi.elim
    have hpass := buildPass_inv srs (fun _ => False) hS waves srs.enum [] exec
      (fun p hp => by
        obtain ⟨i, a⟩ := p
        exact List.mk_mem_enum_iff_get?.mp hp)
      (by rw [List.enum_map_fst]; exact List.nodup_range _)
      (fun p _ => List.not_mem_nil p.1)
      (by simpa using h)
    have hba := c1_pass_ba srs iA iB A B nA hU hgetA hnameA hgetB hdepB hlt waves
      srs.enum [] exec
      (fun p hp => by
        obtain ⟨i, a⟩ := p
        exact List.mk_mem_enum_iff_get?.mp hp)
      (enum_pairwise srs)
      (fun p _ => List.not_mem_nil p.1)
      (by simpa using h)
      (fun hm => absurd hm (List.not_mem_nil _))
      (fun _ => List.mk_mem_enum_iff_get?.mpr hgetA)
      (fun _ => List.not_mem_nil iA)
    rw [buildLoop]
    rcases hsplit : buildPass waves srs.enum [] exec with ⟨wave, exec2⟩
    rw [hsplit] at hpass hba
    simp only [] at hpass hba
    simp only []
    by_cases hw : wave.isEmpty = true
    · simp only [hw, if_true]
      exact ⟨exec, h, hlater⟩
    · simp only [hw, if_false, Bool.false_eq_true]
      refine ih (waves ++ [wave]) exec2 ?_ ?_
      · rw [List.flatten_append]
        simpa using hpass
      · intro k w2 hk hiB2
        have hklt : k < waves.length + 1 := by
          have hx := (List.get?_eq_some.mp hk).choose
          rw [List.length_append, List.length_singleton] at hx
          exact hx
        by_cases hkw : k < waves.length
        · rw [List.get?_append hkw] at hk
          obtain ⟨k2, w3, hk2lt, hk2, hiA3⟩ := hlater k w2 hk hiB2
          exact ⟨k2, w3, hk2lt, by
            rw [List.get?_append (lt_trans hk2lt hkw)]
            exact hk2, hiA3⟩
        · have hkeq : k = waves.length := by omega
          subst hkeq
          obtain rfl : w2 = wave := by
            rw [List.get?_concat_length] at hk
            injection hk with hh
            exact hh.symm
          have hiAfl : iA ∈ waves.flatten := hba hiB2
          obtain ⟨w3, hw3mem, hiA3⟩ := List.mem_join.mp hiAfl
          obtain ⟨k2, hk2⟩ := List.mem_iff_get?.mp hw3mem
          have hk2lt : k2 < waves.length := (List.get?_eq_some.mp hk2).choose
          exact ⟨k2, w3, hk2lt, by
            rw [List.get?_append hk2lt]
            exact hk2, hiA3⟩

theorem c1_same_wave (srs : List SubrequestConfig) (iA iB : Nat)
    (A B : SubrequestConfig) (nA : String)
    (hU : ∀ i j sri srj n, srs.get? i = some sri → srs.get? j = some srj →
      sri.name = some n → srj.name = some n → i = j)
    (hgetA : srs.get? iA = some A) (hnameA : A.name = some nA)
    (hgetB : srs.get? iB = some B) (hdepB : B.depends_on = [nA])
    (hlt : iA < iB) (waves : List (List Nat))
    (hok : buildExecutionOrder srs = .ok waves) :
    ∀ w ∈ waves, (iA ∈ w ↔ iB ∈ w) := by
  obtain ⟨exec2, _, hiff⟩ := c1_loop_ab srs iA iB A B nA hU hgetA hnameA hgetB hdepB hlt
    (srs.length + 1) [] [] (buildInv_initial srs _)
    (fun w hw => absurd hw (List.not_mem_nil _))
  have hw : buildLoop srs (srs.length + 1) [] [] = waves := by
    unfold buildExecutionOrder at hok
    by_cases hsum : ((buildLoop srs (srs.length + 1) [] []).map List.length).sum = srs.length
    · rw [if_pos hsum] at hok
      injection hok
    · rw [if_neg hsum] at hok
      cases hok
  rw [hw] at hiff
  exact hiff

theorem c1_later_wave (srs : List SubrequestConfig) (iA iB : Nat)
    (A B : SubrequestConfig) (nA : String)
    (hU : ∀ i j sri srj n, srs.get? i = some sri → srs.get? j = some srj →
      sri.name = some n → srj.name = some n → i = j)
    (hgetA : srs.get? iA = some A) (hnameA : A.name = some nA)
    (hgetB : srs.get? iB = some B) (hdepB : B.depends_on = [nA])
    (hlt : iB < iA) (waves : List (List Nat))
    (hok : buildExecutionOrder srs = .ok waves) :
    ∀ kB wB, waves.get? kB = some wB → iB ∈ wB →
      ∃ kA wA, kA < kB ∧ waves.get? kA = some wA ∧ iA ∈ wA := by
  obtain ⟨exec2, _, hlater⟩ := c1_loop_ba srs iA iB A B nA hU hgetA hnameA hgetB hdepB hlt
    (srs.length + 1) [] [] (buildInv_initial srs _)
    (by
      intro k w2 hk
      simp at hk)
  have hw : buildLoop srs (srs.length + 1) [] [] = waves := by
    unfold buildExecutionOrder at hok
    by_cases hsum : ((buildLoop srs (srs.length + 1) [] []).map List.length).sum = srs.length
    · rw [if_pos hsum] at hok
      injection hok
    · rw [if_neg hsum] at hok
      cases hok
  rw [hw] at hlater
  exact hlater

theorem epw_ctx_lacks (rmatch : String → String → Bool) (cm : ClientManager)
    (srs : List SubrequestConfig) (iA iB : Nat) (X : String)
    (hhold : ∀ j sr', srs.get? j = some sr' → sr'.name = some X → j = iA) :
    ∀ (wavesList : List (List Nat)) (ctx : InterpolationContext)
      (acc : List (Nat × Json)) (allRes : List (Nat × Json)) (evs : List ExecEvent),
      executeParallelWaves rmatch cm srs wavesList ctx acc = (.ok allRes, evs) →
      (∀ i ∈ wavesList.flatten, ∃ sr, srs.get? i = some sr) →
      wavesList.flatten.Nodup →
      (∀ w ∈ wavesList, (iA ∈ w ↔ iB ∈ w)) →
      ctx.subrequestResults.lookup X = none →
      ∀ c, ExecEvent.dispatched iB c ∈ evs → c.subrequestResults.lookup X = none := by
  intro wavesList
  induction wavesList with
  | nil =>
    intro ctx acc allRes evs h _ _ _ _ c hc
    rw [executeParallelWaves] at h
    have hevs : ([] : List ExecEvent) = evs := congrArg Prod.snd h
    rw [← hevs] at hc
    cases hc
  | cons wave restWaves ih =>
    intro ctx acc allRes evs h hbnd hnd hsame hX c hc
    have hbndw : ∀ i ∈ wave, ∃ sr, srs.get? i = some sr := fun i hi =>
      hbnd i (by rw [List.flatten_cons]; exact List.mem_append_left _ hi)
    have hbndr : ∀ i ∈ restWaves.flatten, ∃ sr, srs.get? i = some sr := fun i hi =>
      hbnd i (by rw [List.flatten_cons]; exact List.mem_append_right _ hi)
    have hnd' : (wave ++ restWaves.flatten).Nodup := by
      rw [List.flatten_cons] at hnd
      exact hnd
    obtain ⟨hndw, hndr, hdisjnt⟩ := List.nodup_append.mp hnd'
    obtain ⟨w1, w2, w3, w4, w5, w6⟩ := runWave_spec rmatch cm srs ctx wave hbndw
    rw [executeParallelWaves] at h
    rcases hrw : runWave rmatch cm srs ctx wave with ⟨triples, evs1⟩
    rw [hrw] at h w1 w2 w3 w4 w5 w6
    simp only [] at h
    rcases hcw : collectWave triples ctx acc with e | ctxacc
    · rw [hcw] at h
      simp only [] at h
      exact absurd (congrArg Prod.fst h) (by simp)
    · obtain ⟨ctx2, acc2⟩ := ctxacc
      rw [hcw] at h
      simp only [] at h
      rcases hrec : executeParallelWaves rmatch cm srs restWaves ctx2 acc2 with ⟨r, evs2⟩
      rw [hrec] at h
      simp only [] at h
      obtain ⟨hr, hevs⟩ : r = .ok allRes ∧ evs1 ++ evs2 = evs :=
        ⟨congrArg Prod.fst h, congrArg Prod.snd h⟩
      subst hr
      subst hevs
      obtain ⟨c1, c2, c3⟩ := collectWave_ok triples ctx acc ctx2 acc2 hcw
      rcases List.mem_append.mp hc with hc1 | hc2
      · obtain ⟨hceq, _⟩ := w5 iB c hc1
        rw [hceq]
        exact hX
      · obtain ⟨_, ihevs2, _, _, _⟩ := executeParallelWaves_ok rmatch cm srs restWaves ctx2
          acc2 allRes evs2 hrec hbndr
        have hiBrest : iB ∈ restWaves.flatten := by
          rw [← ihevs2]
          exact List.mem_map_of_mem eventIdx hc2
        have hX2 : ctx2.subrequestResults.lookup X = none := by
          refine c3 X hX ?_
          intro t ht htx
          obtain ⟨sr, hget, hnm, _, _⟩ := w4 t ht
          have htA : t.1 = iA := hhold t.1 sr hget (by rw [← hnm]; exact htx)
          have htw : t.1 ∈ wave := w3.subset (List.mem_map_of_mem Prod.fst ht)
          have hiAw : iA ∈ wave := htA ▸ htw
          have hiBw : iB ∈ wave := (hsame wave (List.mem_cons_self _ _)).mp hiAw
          exact hdisjnt hiBw hiBrest
        exact ih ctx2 acc2 allRes evs2 hrec hbndr hndr
          (fun w' hw' => hsame w' (List.mem_cons_of_mem _ hw')) hX2 c hc2

theorem two_names_unique (s1 s2 : SubrequestConfig) (n1 n2 : String)
    (h1 : s1.name = some n1) (h2 : s2.name = some n2) (hne : n1 ≠ n2) :
    ∀ i j sri srj n, [s1, s2].get? i = some sri → [s1, s2].get? j = some srj →
      sri.name = some n → srj.name = some n → i = j := by
  intro i j sri srj n hi hj hni hnj
  match i, j with
  | 0, 0 => rfl
  | 1, 1 => rfl
  | 0, 1 =>
    obtain rfl : sri = s1 := (Option.some.inj (show some s1 = some sri from hi)).symm
    obtain rfl : srj = s2 := (Option.some.inj (show some s2 = some srj from hj)).symm
    rw [h1] at hni
    rw [h2] at hnj
    have hy : n1 = n := Option.some.inj hni
    have hx : n2 = n := Option.some.inj hnj
    exact absurd (hy.trans hx.symm) hne
  | 1, 0 =>
    obtain rfl : sri = s2 := (Option.some.inj (show some s2 = some sri from hi)).symm
    obtain rfl : srj = s1 := (Option.some.inj (show some s1 = some srj from hj)).symm
    rw [h2] at hni
    rw [h1] at hnj
    have hy : n2 = n := Option.some.inj hni
    have hx : n1 = n := Option.some.inj hnj
    exact absurd (hx.trans hy.symm) hne
  | i + 2, _ => exact absurd hi (by simp [List.get?])
  | _, j + 2 => exact absurd hj (by simp [List.get?])

/-- C1 (amended): wave computation inserts each selected subrequest's name
into the scheduled set immediately during the scan.  Hence, universally,
for a route with pairwise-distinct subrequest names whose wave computation
succeeds, a named subrequest `A` (index `iA`) and a subrequest `B` (index
`iB`) with `B.depends_on = [A's name]`: (i) if `A` precedes `B` in
definition order, every wave contains either both or neither — they land in
the SAME wave, never a strictly later one — and every dispatch of `B`
receives the wave-start snapshot, which holds no result under `A`'s name;
(ii) a context with no stored result under `A` expands
`/u/${subrequest.A.body.id}` to `/u/`; (iii) if `B` precedes `A`, `B`'s
wave is strictly later than `A`'s; (iv) yet even a context that stores the
result the code produced for an HTTP subrequest `A` expands
`/u/${subrequest.A.body.id}` to `/u/` — never `/u/42` — because the stored
envelope keeps `body` as a raw string, so `.body.id` traverses a string and
yields empty. -/
theorem c1_amended (srs : List SubrequestConfig) (iA iB : Nat)
    (A B : SubrequestConfig) (nA : String)
    (hU : ∀ i j sri srj n, srs.get? i = some sri → srs.get? j = some srj →
      sri.name = some n → srj.name = some n → i = j)
    (hgetA : srs.get? iA = some A) (hnameA : A.name = some nA)
    (hgetB : srs.get? iB = some B) (hdepB : B.depends_on = [nA])
    (waves : List (List Nat)) (hok : buildExecutionOrder srs = .ok waves) :
    (iA < iB → (∀ w ∈ waves, (iA ∈ w ↔ iB ∈ w)) ∧ ∃ w ∈ waves, iA ∈ w ∧ iB ∈ w) ∧
    (iA < iB → ∀ (rmatch : String → String → Bool) (cm : ClientManager)
      (ctx0 : InterpolationContext) (res : List Json) (evs : List ExecEvent),
      executeParallel rmatch cm srs ctx0 = (.ok res, evs) →
      ctx0.subrequestResults.lookup nA = none →
      ∀ c, ExecEvent.dispatched iB c ∈ evs →
        c.subrequestResults.lookup nA = none) ∧
    (iB < iA → ∀ kB wB, waves.get? kB = some wB → iB ∈ wB →
      ∃ kA wA, kA < kB ∧ waves.get? kA = some wA ∧ iA ∈ wA) ∧
    (∀ ctx : InterpolationContext, ctx.subrequestResults.lookup "A" = none →
      ctx.interpolate "/u/$\x7bsubrequest.A.body.id\x7d" = "/u/") ∧
    (∀ (cm : ClientManager) (cid : String) (hcfg : HttpSubrequestConfig)
      (ctx1 ctx2 : InterpolationContext) (v : Json),
      executeHttpSubrequest cm cid hcfg ctx1 = .ok v →
      (ctx2.addSubrequestResult "A" v).interpolate
        "/u/$\x7bsubrequest.A.body.id\x7d" = "/u/") ∧
    ("/u/" : String) ≠ "/u/42" := by
  refine ⟨?_, ?_, ?_, ?_, ?_, by decide⟩
  · intro hlt
    have hiff := c1_same_wave srs iA iB A B nA hU hgetA hnameA hgetB hdepB hlt waves hok
    refine ⟨hiff, ?_⟩
    obtain ⟨hndup, hbnds, hcov⟩ := buildExecutionOrder_ok srs waves hok
    have hiAfl : iA ∈ waves.flatten := hcov iA A hgetA
    obtain ⟨w, hwmem, hiAw⟩ := List.mem_join.mp hiAfl
    exact ⟨w, hwmem, hiAw, (hiff w hwmem).mp hiAw⟩
  · intro hlt rmatch cm ctx0 res evs hep hX c hc
    unfold executeParallel at hep
    rw [hok] at hep
    simp only [] at hep
    rcases hepw : executeParallelWaves rmatch cm srs waves ctx0 [] with ⟨r, evs'⟩
    rw [hepw] at hep
    cases r with
    | error e =>
      simp only [] at hep
      exact absurd (congrArg Prod.fst hep) (by simp)
    | ok allRes =>
      simp only [] at hep
      have hevs : evs' = evs := congrArg Prod.snd hep
      rw [hevs] at hepw
      obtain ⟨hndup, hbnds, hcov⟩ := buildExecutionOrder_ok srs waves hok
      exact epw_ctx_lacks rmatch cm srs iA iB nA
        (fun j sr' hj hn => hU j iA sr' A nA hj hgetA hn hnameA)
        waves ctx0 [] allRes evs hepw hbnds hndup
        (c1_same_wave srs iA iB A B nA hU hgetA hnameA hgetB hdepB hlt waves hok)
        hX c hc
  · intro hlt kB wB hkB hiB
    exact c1_later_wave srs iA iB A B nA hU hgetA hnameA hgetB hdepB hlt waves hok kB wB
      hkB hiB
  · exact interp_missing_name
  · intro cm cid hcfg ctx1 ctx2 v hv
    obtain ⟨s, st, hdrs, hshape⟩ := http_env_shape cm cid hcfg ctx1 v hv
    exact interp_stored_http ctx2 v s st hdrs cid hshape

/-- C1 (amended) witness: at the two-subrequest fixtures the theorem puts
`A` and `B` (in that order) into the common wave of `[[0, 1]]`, shows `B`'s
dispatch snapshot in that run holds no result for `A`, places `B` (defined
first) strictly after `A` in `[[1], [0]]`, and expands
`/u/${subrequest.A.body.id}` to `/u/` both with no stored result and with
`A`'s stored envelope `envA`. -/
theorem c1_amended_witness :
    (∃ w ∈ [[0, 1]], 0 ∈ w ∧ 1 ∈ w) ∧
    ctxE.subrequestResults.lookup "A" = none ∧
    (∃ kA wA, kA < 1 ∧ [[1], [0]].get? kA = some wA ∧ 1 ∈ wA) ∧
    ctxE.interpolate "/u/$\x7bsubrequest.A.body.id\x7d" = "/u/" ∧
    (ctxE.addSubrequestResult "A" envA).interpolate
      "/u/$\x7bsubrequest.A.body.id\x7d" = "/u/" := by
  refine ⟨?_, ?_, ?_, ?_, ?_⟩
  · exact ((c1_amended [srA, srB] 0 1 srA srB "A"
      (two_names_unique srA srB "A" "B" rfl rfl (by decide))
      rfl rfl rfl rfl [[0, 1]] rfl).1 (by decide)).2
  · exact (c1_amended [srA, srB] 0 1 srA srB "A"
      (two_names_unique srA srB "A" "B" rfl rfl (by decide))
      rfl rfl rfl rfl [[0, 1]] rfl).2.1 (by decide) rm0 cm1 ctxE [envA, envB]
      [.dispatched 0 ctxE, .dispatched 1 ctxE] rfl rfl ctxE
      (List.mem_cons_of_mem _ (List.mem_cons_self _ _))
  · exact (c1_amended [srB, srA] 1 0 srA srB "A"
      (two_names_unique srB srA "B" "A" rfl rfl (by decide))
      rfl rfl rfl rfl [[1], [0]] rfl).2.2.1 (by decide) 1 [0] rfl
      (List.mem_singleton_self 0)
  · exact (c1_amended [srA, srB] 0 1 srA srB "A"
      (two_names_unique srA srB "A" "B" rfl rfl (by decide))
      rfl rfl rfl rfl [[0, 1]] rfl).2.2.2.1 ctxE rfl
  · exact (c1_amended [srA, srB] 0 1 srA srB "A"
      (two_names_unique srA srB "A" "B" rfl rfl (by decide))
      rfl rfl rfl rfl [[0, 1]] rfl).2.2.2.2.1 cm1 "cA"
      ⟨"/a", "GET", [], none, []⟩ ctxE ctxE envA rfl
